import Mathlib

/-!
Verification of the websocketrt real-time WebSocket transport library.

This file gives a shallow embedding, in Lean 4, of the parts of the
TypeScript source that the verified properties talk about:

* `TransportCapabilities` and the capability bitmask constants
  (src/TransportCapabilities.ts);
* the send-loop byte-budget computation and the randomized ping interval
  (Connection._sendLoop);
* the `MovingAverage` estimator (src/BandwidthEstimator.ts);
* the priority `SendQueue` (src/js/src/SendQueue.ts);
* the message-callback delivery logic (`Message._executeCallbacks`);
* the outgoing message-number pool (Connection.send / _sendLoop /
  cancelOutgoingMessage);
* cancellation of received messages (Connection.cancelReceivedMessages);
* the `ControlFrame` / `DataFrameControl` / `MessageCancelControl` codec
  (src/ControlFrame.ts with src/BinaryConverter.ts).

JavaScript numbers are modelled as `Nat`, `Int` or `Rat` as appropriate:
all-integer counters become `Nat`/`Int` (with explicit `% 2 ^ w` where the
source relies on 32-bit coercion), and quantities that flow through
fractional arithmetic (`/`, `Math.floor`, `Math.random`) become `Rat`.
`Queue` (src/Queue.ts) is a plain FIFO over a JS array (`push`/`shift`),
modelled as a `List` with enqueue at the tail and dequeue at the head.
-/

namespace WebSocketRT

/-! ### TransportCapabilities (src/TransportCapabilities.ts)

The `TransportCapabilities1` const enum.  The values are the numeric
literals from the source.  `capabilities1` is read from and written to the
wire with `readInt32`/`writeInt32`, so it is modelled as `Int`. -/

namespace TransportCapabilities1

/-- `TransportCapabilities1.None = 0` -/
def NoCapabilities : Int := 0

/-- `TransportCapabilities1.Capabilities = 1` -/
def Capabilities : Int := 1

/-- `TransportCapabilities1.CancelMessage = 2` -/
def CancelMessage : Int := 2

/-- `TransportCapabilities1.Capabilities2 = 2147483647` (value as written in
src/TransportCapabilities.ts line 26) -/
def Capabilities2 : Int := 2147483647

/-- `TransportCapabilities1.All = Capabilities | CancelMessage`.  Both
operands are single distinct bits, so the bitwise or equals the sum. -/
def All : Int := Capabilities + CancelMessage

end TransportCapabilities1

/-- Version plus feature bitmask of one transport library
(class `TransportCapabilities`). -/
structure TransportCapabilities where
  majorVersion : Nat
  minorVersion : Nat
  capabilities1 : Int
deriving DecidableEq

/-- `TransportCapabilities.getZeroCapabilities()` -/
def TransportCapabilities.getZeroCapabilities : TransportCapabilities :=
  ⟨0, 0, TransportCapabilities1.NoCapabilities⟩

/-- `TransportCapabilities.getLocalCapabilties()` (typo kept from source) -/
def TransportCapabilities.getLocalCapabilties : TransportCapabilities :=
  ⟨1, 1, TransportCapabilities1.All⟩

/-! ### Send-loop byte budget (Connection._sendLoop)

From the current source (src/unnamed/part_016, lines 850-857):

    bytesRemaining = this._outboundThroughputEstimate * this._config.maxPercentThroughput *
      this._config.targetResponsiveness / 100000;
    bytesRemaining = Math.floor((bytesRemaining / this._config.singlePacketMtu) + 1) *
      this._config.singlePacketMtu;

All four quantities are JS numbers; the computation is exact rational
arithmetic followed by `Math.floor`, so it is modelled over `Rat`.
`Math.floor(x + 1) = Math.floor(x) + 1` since 1 is an integer. -/

def bytesBudget (outboundThroughputEstimate maxPercentThroughput
    targetResponsiveness singlePacketMtu : ℚ) : ℚ :=
  let bytesRemaining := outboundThroughputEstimate * maxPercentThroughput *
    targetResponsiveness / 100000
  ((⌊bytesRemaining / singlePacketMtu + 1⌋ : ℤ) : ℚ) * singlePacketMtu

/-- Modelled from the spec: the byte-budget formula as the specification
states it, for comparison with `bytesBudget` from the source:
`⌈(outboundThroughputEstimate × maxPercentThroughput × targetResponsiveness
/ 100000) / singlePacketMtu⌉ × singlePacketMtu`. -/
def bytesBudgetSpec (outboundThroughputEstimate maxPercentThroughput
    targetResponsiveness singlePacketMtu : ℚ) : ℚ :=
  let product := outboundThroughputEstimate * maxPercentThroughput *
    targetResponsiveness / 100000
  ((⌈product / singlePacketMtu⌉ : ℤ) : ℚ) * singlePacketMtu

/-! ### Randomized ping interval (Connection._sendLoop)

From the current source (src/unnamed/part_016, lines 896-908):

    let interval = this._config.pingInterval;
    if (this._pingCount < (this._config.pingInterval / this._config.initialPingInterval)) {
      interval = this._config.initialPingInterval;
    }
    let randomizedInterval = interval + (interval / 2) - (Math.random() * interval);

`Math.random()` returns a uniform value in [0, 1); it is modelled as an
arbitrary rational `r` with `0 ≤ r < 1`. -/

def pingBaseInterval (pingCount pingInterval initialPingInterval : ℚ) : ℚ :=
  if pingCount < pingInterval / initialPingInterval then initialPingInterval
  else pingInterval

def randomizedPingInterval (interval r : ℚ) : ℚ :=
  interval + interval / 2 - r * interval

/-! ### MovingAverage (src/BandwidthEstimator.ts, lines 116-144)

    public record(value: number): void {
      this._values.enqueue(value);
      this._sum += value;
      if (this._values.getCount() > this._maxValues) {
        let oldValue = this._values.dequeue();
        this._sum -= oldValue;
      }
      this._average = Math.floor(this._sum / this._values.getCount());
    }

The constructor records one initial value.  Samples are JS numbers (the
throughput samples are fractional), modelled as `Rat`; `Math.floor`
produces an integer, so `_average` is modelled as `Int`.  The `Queue` is a
`List` with enqueue at the tail and dequeue at the head; `_average` holds
0 before the constructor's `record` call runs. -/

structure MovingAverage where
  maxValues : ℕ
  values : List ℚ
  sum : ℚ
  average : ℤ

def MovingAverage.record (s : MovingAverage) (value : ℚ) : MovingAverage :=
  let values1 := s.values ++ [value]
  let sum1 := s.sum + value
  if s.maxValues < values1.length then
    let oldValue := values1.headD 0
    let values2 := values1.tail
    let sum2 := sum1 - oldValue
    ⟨s.maxValues, values2, sum2, ⌊sum2 / (values2.length : ℚ)⌋⟩
  else
    ⟨s.maxValues, values1, sum1, ⌊sum1 / (values1.length : ℚ)⌋⟩

/-- The constructor `new MovingAverage(initialValue, maxValues)`. -/
def MovingAverage.initial (initialValue : ℚ) (maxValues : ℕ) : MovingAverage :=
  MovingAverage.record ⟨maxValues, [], 0, 0⟩ initialValue

def MovingAverage.recordAll (s : MovingAverage) (xs : List ℚ) : MovingAverage :=
  xs.foldl MovingAverage.record s

/-- Well-formedness maintained by `record`: the running `_sum` equals the
sum of the retained samples, the ring never holds more than `maxValues`
entries, and `_average` is the floor of sum over count. -/
def MovingAverage.WF (s : MovingAverage) : Prop :=
  s.sum = s.values.sum ∧ s.values.length ≤ s.maxValues ∧
    s.average = ⌊s.sum / (s.values.length : ℚ)⌋

/-- State of the estimator after construction with `initialValue` and
window `maxValues`, followed by recording each sample of `xs` in order. -/
def movingAverageFinal (initialValue : ℚ) (maxValues : ℕ) (xs : List ℚ) : MovingAverage :=
  (MovingAverage.initial initialValue maxValues).recordAll xs

/-! ### SendQueue (src/js/src/SendQueue.ts)

One FIFO queue per priority level, lazily instantiated (a slot of the
`_messageQueues` array is `undefined` until first use, modelled as
`Option`), plus the cached `_highestPriority` cursor.  The embedded
version is the current one (src/js/src/SendQueue.ts), whose `enqueue`
updates the cursor with `Math.min`; the older src/SendQueue.ts lacks that
line but its `getNext` and `cancel` are identical.

`OutgoingMessage` (src/src/OutgoingMessage.ts) carries the fields the
queue reads: `getBytesReady() = message.getBytesReceived() - _bytesSent`
and `getBytesRemaining() = message.getPayload().length - _bytesSent`.
`message.getBytesReceived()` returns the full payload length for an
outgoing-constructed message and `_bytesReceived` for an incoming one
being forwarded; it is embedded as the field `msgBytesReceived`.  JS
subtraction is modelled with truncated `Nat` subtraction; the transport
maintains `bytesSent ≤ msgBytesReceived ≤ payloadLength`, and every
theorem below operates in that regime.  JS object identity (`===`) is
modelled by structural equality on these records; distinct queued
messages are distinguishable by `messageNumber`. -/

structure OutgoingMessage where
  messageNumber : ℕ
  priority : ℕ
  payloadLength : ℕ
  msgBytesReceived : ℕ
  bytesSent : ℕ
deriving DecidableEq

def OutgoingMessage.getBytesRemaining (m : OutgoingMessage) : ℕ :=
  m.payloadLength - m.bytesSent

def OutgoingMessage.getBytesReady (m : OutgoingMessage) : ℕ :=
  m.msgBytesReceived - m.bytesSent

structure SendQueue where
  messageQueues : List (Option (List OutgoingMessage))
  highestPriority : ℕ
deriving DecidableEq

/-- `new SendQueue(priorityLevels)`: an array of `priorityLevels` empty
slots, cursor 0. -/
def SendQueue.init (priorityLevels : ℕ) : SendQueue :=
  ⟨List.replicate priorityLevels none, 0⟩

/-- `this._messageQueues[p]` (`undefined` out of range or before first
use). -/
def SendQueue.queueAt (s : SendQueue) (p : ℕ) : Option (List OutgoingMessage) :=
  s.messageQueues.getD p none

/-- The sequence of messages stored at priority `p` (empty when the slot
is uninstantiated). -/
def SendQueue.contentAt (s : SendQueue) (p : ℕ) : List OutgoingMessage :=
  (s.queueAt p).getD []

/-- `SendQueue.enqueue`: append to `queue[m.priority]`, instantiating the
slot if needed, then `_highestPriority = Math.min(_highestPriority,
priority)`. -/
def SendQueue.enqueue (s : SendQueue) (message : OutgoingMessage) : SendQueue :=
  let queue := (s.queueAt message.priority).getD []
  ⟨s.messageQueues.set message.priority (some (queue ++ [message])),
    min s.highestPriority message.priority⟩

/-- The while loop of `SendQueue.getNext`, scanning priorities upward from
`p`.  `hp` threads the `_highestPriority` member, which is incremented
when an instantiated-but-empty queue is seen; a `bytesReady == 0` head is
skipped without touching the cursor; a ready head is returned, dequeued
exactly when the send completes it (`bytesReady === bytesRemaining &&
bytesReady <= maxBytes`).  The structural `fuel` parameter bounds the
remaining iterations: the JS loop runs while `p < queues.length`, so any
`fuel ≥ queues.length - p` (the callers pass `queues.length`) makes the
recursion identical to the unbounded loop. -/
def SendQueue.getNextLoop (maxBytes : ℕ) (queues : List (Option (List OutgoingMessage)))
    (hp p fuel : ℕ) :
    Option (OutgoingMessage × ℕ) × List (Option (List OutgoingMessage)) × ℕ :=
  match fuel with
  | 0 => (none, queues, hp)
  | fuel + 1 =>
    if p < queues.length then
      match queues.getD p none with
      | none => SendQueue.getNextLoop maxBytes queues hp (p + 1) fuel
      | some [] => SendQueue.getNextLoop maxBytes queues (hp + 1) (p + 1) fuel
      | some (message :: rest) =>
        if 0 < message.getBytesReady then
          let queues2 :=
            if message.getBytesReady = message.getBytesRemaining ∧
                message.getBytesReady ≤ maxBytes then
              queues.set p (some rest)
            else queues
          (some (message, min message.getBytesReady maxBytes), queues2, hp)
        else SendQueue.getNextLoop maxBytes queues hp (p + 1) fuel
    else (none, queues, hp)

/-- `SendQueue.getNext(maxBytes)`: returns `(message, bytesToSend)` (or
`none` with `bytesToSend = 0`, which we fold into the `Option`) and the
updated queue state. -/
def SendQueue.getNext (maxBytes : ℕ) (s : SendQueue) :
    Option (OutgoingMessage × ℕ) × SendQueue :=
  let r := SendQueue.getNextLoop maxBytes s.messageQueues s.highestPriority
    s.highestPriority s.messageQueues.length
  (r.1, ⟨r.2.1, r.2.2⟩)

/-- `SendQueue.cancel(message)`.  The `Bool` is `true` when the message
was found and removed; `false` models the `throw new Error(...)` path.
The state component is the queue array as left behind by the method
(mutations before the throw persist: the count-greater-than-one path
rebuilds the queue before checking `found`). -/
def SendQueue.cancel (s : SendQueue) (message : OutgoingMessage) :
    Bool × SendQueue :=
  match s.queueAt message.priority with
  | some (x :: xs) =>
    if xs = [] then
      if x = message then
        (true, ⟨s.messageQueues.set message.priority (some []), s.highestPriority⟩)
      else (false, s)
    else
      let newQueue := (x :: xs).filter (fun e => decide (e ≠ message))
      ((x :: xs).any (fun e => decide (e = message)),
        ⟨s.messageQueues.set message.priority (some newQueue), s.highestPriority⟩)
  | _ => (false, s)

/-- One interaction with the send queue: an `enqueue` (from
`Connection.send`) or a `getNext` (from the send loop). -/
inductive SendOp where
  | enq (m : OutgoingMessage)
  | next (maxBytes : ℕ)
deriving DecidableEq

/-- Runs a sequence of operations against the queue, collecting the
messages returned by the `getNext` calls in order. -/
def SendQueue.runOps (s : SendQueue) (ops : List SendOp) :
    SendQueue × List OutgoingMessage :=
  match ops with
  | [] => (s, [])
  | SendOp.enq m :: rest => SendQueue.runOps (s.enqueue m) rest
  | SendOp.next b :: rest =>
    let r := SendQueue.getNext b s
    let r2 := SendQueue.runOps r.2 rest
    match r.1 with
    | some (m, _) => (r2.1, m :: r2.2)
    | none => (r2.1, r2.2)

def SendQueue.enqueueAll (s : SendQueue) (ms : List OutgoingMessage) : SendQueue :=
  ms.foldl SendQueue.enqueue s

/-- Repeatedly calls `getNext` (as the send loop does), collecting the
returned messages, until `getNext` returns none or `fuel` runs out. -/
def SendQueue.drain (fuel maxBytes : ℕ) (s : SendQueue) : List OutgoingMessage :=
  match fuel with
  | 0 => []
  | fuel + 1 =>
    match SendQueue.getNext maxBytes s with
    | (some (m, _), s2) => m :: SendQueue.drain fuel maxBytes s2
    | (none, _) => []

/-- The order obtained by sorting `ms` on (priority ascending, original
position): all priority-0 messages in enqueue order, then priority 1, and
so on. -/
def priorityOrder (priorityLevels : ℕ) (ms : List OutgoingMessage) :
    List OutgoingMessage :=
  (List.range priorityLevels).flatMap (fun p => ms.filter (fun m => decide (m.priority = p)))

/-- The sequence held at slot `p` of a raw queue array. -/
def contentAtL (queues : List (Option (List OutgoingMessage))) (p : ℕ) :
    List OutgoingMessage :=
  (queues.getD p none).getD []

/-- A message whose whole remaining payload is ready and fits in the
budget: `getNext` returns it and dequeues it in one call. -/
def readyFor (maxBytes : ℕ) (m : OutgoingMessage) : Prop :=
  0 < m.getBytesReady ∧ m.getBytesReady = m.getBytesRemaining ∧
    m.getBytesReady ≤ maxBytes

/-- Concatenation of all per-priority queues in priority order. -/
def joinContents : List (Option (List OutgoingMessage)) → List OutgoingMessage
  | [] => []
  | q :: rest => q.getD [] ++ joinContents rest

/-! ### Outgoing message-number pool (Connection, src/unnamed/part_016)

The `_sendMessageNumbers` queue is filled by the constructor with
`0 .. maxConcurrentMessages - 1` (lines 492-496).  `send` dequeues a
number (blocking while the queue is empty, lines 795-801) and the number
is in flight until either the send loop emits the message's `isLast`
frame (lines 945-950) or `cancelOutgoingMessage` succeeds (line 1018);
both re-enqueue it.  The pool is modelled together with the ghost set of
in-flight numbers, and the three re-queue/dequeue events as a step
relation; interleaving of the send loop, the send calls and the
cancellation path is any sequence of these atomic steps. -/

structure MessageNumberPool where
  pool : List ℕ
  inflight : List ℕ
deriving DecidableEq

/-- Constructor state: pool `[0, ..., maxConcurrentMessages - 1]`, nothing
in flight. -/
def MessageNumberPool.init (maxConcurrentMessages : ℕ) : MessageNumberPool :=
  ⟨List.range maxConcurrentMessages, []⟩

/-- One atomic transition on the message-number pool.  `send` is the
dequeue in `Connection.send`; `complete` is the isLast branch of the send
loop (the number of a message whose last frame is sent returns to the
pool); `cancelOutgoing` is the successful path of
`cancelOutgoingMessage`.  Both return paths require the number to be in
flight: a message number only reaches the isLast branch or the cancel
path while an `OutgoingMessage` holds it. -/
inductive MessageNumberPool.Step : MessageNumberPool → MessageNumberPool → Prop where
  | send (n : ℕ) (pool inflight : List ℕ) :
      MessageNumberPool.Step ⟨n :: pool, inflight⟩ ⟨pool, n :: inflight⟩
  | complete (n : ℕ) (pool inflight : List ℕ) (h : n ∈ inflight) :
      MessageNumberPool.Step ⟨pool, inflight⟩ ⟨pool ++ [n], inflight.erase n⟩
  | cancelOutgoing (n : ℕ) (pool inflight : List ℕ) (h : n ∈ inflight) :
      MessageNumberPool.Step ⟨pool, inflight⟩ ⟨pool ++ [n], inflight.erase n⟩

def MessageNumberPool.Reachable (maxConcurrentMessages : ℕ) (s : MessageNumberPool) : Prop :=
  Relation.ReflTransGen MessageNumberPool.Step
    (MessageNumberPool.init maxConcurrentMessages) s

/-! ### Message callback delivery (Message._executeCallbacks, src/unnamed/part_008)

`_executeCallbacks(callbacks)` computes the event bitmap for one dispatch
of one incoming message.  It is called twice per dispatch cycle by
`Connection._dispatchLoop` (lines 751-759): first with `callbacks = null`
(message-level registry), then with the connection-level handler.  The
`_sentNewMessageCallback` / `_sentCompleteCallback` flags are only set on
the second (connection-level) call, so both registries see the same
events within one cycle.  The inputs that can change between cycles are
`isComplete()` and `isCancelled()`; a cycle is modelled as that pair of
booleans.  A message is dispatched for cancellation at most once, and
after the cancellation dispatch the message is never enqueued again (its
slot is cleared), so in every trace produced by the dispatch loop the
cancelled flag is only true in the final cycle. -/

namespace MessageCallbackEvents

/-- Event bitmap values (MessageCallbackHandler.ts). -/
def NewMessage : ℕ := 1

def PayloadReceived : ℕ := 2

def Complete : ℕ := 4

def Cancelled : ℕ := 8

end MessageCallbackEvents

structure MessageFlags where
  sentNewMessageCallback : Bool
  sentCompleteCallback : Bool
deriving DecidableEq

/-- One call of `Message._executeCallbacks`.  Returns the event bitmap
handed to `executeCallbacks` (or `none` for the early `return 0` that
suppresses all events when the message was cancelled before its
NewMessage was ever delivered) and the updated flags. -/
def executeCallbacksStep (connLevel isComplete isCancelled : Bool) (s : MessageFlags) :
    Option ℕ × MessageFlags :=
  let events0 : ℕ := MessageCallbackEvents.PayloadReceived
  let p1 : ℕ × MessageFlags :=
    if !s.sentNewMessageCallback then
      (events0 + MessageCallbackEvents.NewMessage,
        if connLevel then ⟨true, s.sentCompleteCallback⟩ else s)
    else (events0, s)
  let p2 : ℕ × MessageFlags :=
    if !p1.2.sentCompleteCallback && isComplete then
      (p1.1 + MessageCallbackEvents.Complete,
        if connLevel then ⟨p1.2.sentNewMessageCallback, true⟩ else p1.2)
    else (p1.1, p1.2)
  if isCancelled then
    if p2.1.testBit 0 then (none, p2.2)
    else (some MessageCallbackEvents.Cancelled, p2.2)
  else (some p2.1, p2.2)

/-- One dispatch-loop cycle for a message: message-level call followed by
the connection-level call.  Returns the bitmaps delivered to the two
registries. -/
def dispatchCycle (isComplete isCancelled : Bool) (s : MessageFlags) :
    (Option ℕ × Option ℕ) × MessageFlags :=
  let r1 := executeCallbacksStep false isComplete isCancelled s
  let r2 := executeCallbacksStep true isComplete isCancelled r1.2
  ((r1.1, r2.1), r2.2)

/-- Runs a sequence of dispatch cycles, each described by the message's
`(isComplete, isCancelled)` state at that cycle, collecting the delivered
bitmaps. -/
def runDispatch (cycles : List (Bool × Bool)) (s : MessageFlags) :
    List (Option ℕ × Option ℕ) × MessageFlags :=
  match cycles with
  | [] => ([], s)
  | c :: rest =>
    let r := dispatchCycle c.1 c.2 s
    let r2 := runDispatch rest r.2
    (r.1 :: r2.1, r2.2)

/-- A fresh incoming message: neither flag set. -/
def initFlags : MessageFlags := ⟨false, false⟩

/-- Whether an event bitmap was delivered with bit `i` set. -/
def hasBit (o : Option ℕ) (i : ℕ) : Bool :=
  match o with
  | none => false
  | some e => e.testBit i

/-- Number of cycles whose bitmap delivered to the chosen registry
(`connLevel`) contains bit `i`. -/
def countDelivered (outs : List (Option ℕ × Option ℕ)) (connLevel : Bool) (i : ℕ) : ℕ :=
  match outs with
  | [] => 0
  | o :: rest =>
    (if hasBit (if connLevel then o.2 else o.1) i then 1 else 0) +
      countDelivered rest connLevel i

/-! ### Cancellation of received messages (Connection, src/unnamed/part_016)

`cancelReceivedMessage(n)` (lines 717-733) throws
`Error('Invalid message number ...')` when slot `n` of
`_receivedMessages` is empty, otherwise marks the message cancelled,
enqueues it for dispatch and clears the slot.
`cancelReceivedMessages(bitmask)` (lines 739-745) calls it for every set
bit, in index order; the receive loop invokes it on a 0x12 control frame
(lines 700-704).  A thrown error rejects the `_receiveLoop()` promise and
`_loopExceptionWrapper` (lines 563-568) turns it into
`forceClose(err.name)`; a JS `Error`'s `name` is the string `Error`.
Only the cancelled flag of a message matters to these claims, so the
incoming `Message` is modelled by that flag; `forceClose` is modelled by
its close-reason bookkeeping (first caller wins). -/

structure IncomingMessage where
  isCancelled : Bool
deriving DecidableEq

def cancelReceivedMessage (slots : List (Option IncomingMessage))
    (dispatch : List IncomingMessage) (messageNumber : ℕ) :
    Except String (List (Option IncomingMessage) × List IncomingMessage) :=
  match slots.getD messageNumber none with
  | none => Except.error "Invalid message number"
  | some msg =>
    let msg2 : IncomingMessage := { msg with isCancelled := true }
    Except.ok (slots.set messageNumber none, dispatch ++ [msg2])

def cancelReceivedMessagesAux (messageNumberBitmask : ℕ) :
    List ℕ → List (Option IncomingMessage) × List IncomingMessage →
    Except String (List (Option IncomingMessage) × List IncomingMessage)
  | [], st => Except.ok st
  | n :: rest, st =>
    if messageNumberBitmask.testBit n then
      match cancelReceivedMessage st.1 st.2 n with
      | Except.error e => Except.error e
      | Except.ok st2 => cancelReceivedMessagesAux messageNumberBitmask rest st2
    else cancelReceivedMessagesAux messageNumberBitmask rest st

def cancelReceivedMessages (messageNumberBitmask : ℕ)
    (slots : List (Option IncomingMessage)) (dispatch : List IncomingMessage) :
    Except String (List (Option IncomingMessage) × List IncomingMessage) :=
  cancelReceivedMessagesAux messageNumberBitmask (List.range slots.length) (slots, dispatch)

def exceptOk {α : Type} (r : Except String α) : Bool :=
  match r with
  | Except.ok _ => true
  | Except.error _ => false

structure ConnState where
  receivedMessages : List (Option IncomingMessage)
  dispatchQueue : List IncomingMessage
  closeReason : Option String
deriving DecidableEq

/-- `forceClose(reason)`: the first caller records the reason (the socket
close and the cancellation of in-progress incoming messages it also
performs are not needed by these claims). -/
def ConnState.forceClose (c : ConnState) (reason : String) : ConnState :=
  if c.closeReason.isNone then { c with closeReason := some reason } else c

/-- Receive-loop handling of an opcode 0x12 frame: run
`cancelReceivedMessages`; a thrown error escapes the loop and the
exception wrapper calls `forceClose(err.name)` with `err.name = Error`. -/
def processCancelFrame (c : ConnState) (messageNumberBitmask : ℕ) : ConnState :=
  match cancelReceivedMessages messageNumberBitmask c.receivedMessages c.dispatchQueue with
  | Except.ok st => { c with receivedMessages := st.1, dispatchQueue := st.2 }
  | Except.error _ => ConnState.forceClose c "Error"

/-! ### ControlFrame codec (src/ControlFrame.ts, src/BinaryConverter.ts)

Byte buffers (`Uint8Array` / `DataView`) are modelled as `List ℕ` of byte
values; reading past the end yields 0 (the buffers in `ControlFrame`
never do).  `ControlFrame.write` fills a zero-initialised buffer strictly
left to right and truncates it at the final offset, so it is modelled as
the concatenation of the chunks each `write` call produces.  JavaScript
bitwise operations act on 32-bit words; each `&`/`|`/`<<`/`>>>`
combination below packs or extracts bit fields that never overlap, so
they are rendered as arithmetic on the word's unsigned bit pattern
(`% 2 ^ k`, `/ 2 ^ k`, `+`), with a signed conversion exactly where the
code observes the sign (`getInt32`/`readInt32`). -/

/-- `frame[i]` on a byte buffer. -/
def byteAt (frame : List ℕ) (i : ℕ) : ℕ :=
  frame.getD i 0

/-- The unsigned 32-bit big-endian word at `startIndex`:
`(b0 << 24) | (b1 << 16) | (b2 << 8) | b3` (the fields are disjoint, so
the ors are sums). -/
def readWord32 (frame : List ℕ) (startIndex : ℕ) : ℕ :=
  byteAt frame startIndex * 2 ^ 24 + byteAt frame (startIndex + 1) * 2 ^ 16 +
    byteAt frame (startIndex + 2) * 2 ^ 8 + byteAt frame (startIndex + 3)

/-- `BinaryConverter.readInt32`: the big-endian word interpreted as a
signed 32-bit integer (the `b0 << 24` term carries the sign in JS). -/
def BinaryConverter.readInt32 (frame : List ℕ) (startIndex : ℕ) : ℤ :=
  if readWord32 frame startIndex < 2 ^ 31 then (readWord32 frame startIndex : ℤ)
  else (readWord32 frame startIndex : ℤ) - 2 ^ 32

/-- `BinaryConverter.readUInt16`: `(b0 << 8) | b1`. -/
def BinaryConverter.readUInt16 (frame : List ℕ) (startIndex : ℕ) : ℕ :=
  byteAt frame startIndex * 2 ^ 8 + byteAt frame (startIndex + 1)

/-- The four big-endian bytes of the unsigned 32-bit word `u`. -/
def writeUInt32bytes (u : ℕ) : List ℕ :=
  [u / 2 ^ 24 % 2 ^ 8, u / 2 ^ 16 % 2 ^ 8, u / 2 ^ 8 % 2 ^ 8, u % 2 ^ 8]

/-- `BinaryConverter.writeInt32` as the chunk of four bytes it stores:
`(value & 0xff000000) >>> 24` etc. depend only on the value's low 32 bits. -/
def BinaryConverter.writeInt32 (value : ℤ) : List ℕ :=
  writeUInt32bytes (value % 2 ^ 32).toNat

/-- `BinaryConverter.writeUInt16` as the chunk of two bytes it stores. -/
def BinaryConverter.writeUInt16 (value : ℕ) : List ℕ :=
  [value / 2 ^ 8 % 2 ^ 8, value % 2 ^ 8]

/-- `TransportCapabilities.read` (the returned byte count is the constant
8, added by the caller). -/
def TransportCapabilities.read (frame : List ℕ) (startIndex : ℕ) : TransportCapabilities :=
  ⟨BinaryConverter.readUInt16 frame startIndex,
   BinaryConverter.readUInt16 frame (startIndex + 2),
   BinaryConverter.readInt32 frame (startIndex + 4)⟩

/-- `TransportCapabilities.write` as the 8-byte chunk it stores. -/
def TransportCapabilities.write (c : TransportCapabilities) : List ℕ :=
  BinaryConverter.writeUInt16 c.majorVersion ++ BinaryConverter.writeUInt16 c.minorVersion ++
    BinaryConverter.writeInt32 c.capabilities1

/-- `DataFrameControl` (the serialized fields only: `payload` and
`frameLength` are explicitly not serialized).  An absent header
(`undefined`, written as length 0) is the empty list. -/
structure DataFrameControl where
  offset : ℕ
  length : ℕ
  messageNumber : ℕ
  isFirst : Bool
  isLast : Bool
  header : List ℕ
deriving DecidableEq

/-- The first word `DataFrameControl.write` packs:
`(offset & 0x3ffffff) | ((messageNumber & 0xf) << 28) | ((isFirst?1:0) << 27)
| ((isLast?1:0) << 26)` (disjoint bit fields, so sums). -/
def packOffsetWord (offset messageNumber : ℕ) (isFirst isLast : Bool) : ℕ :=
  offset % 2 ^ 26 + messageNumber % 2 ^ 4 * 2 ^ 28 +
    (if isFirst then 2 ^ 27 else 0) + (if isLast then 2 ^ 26 else 0)

/-- The second word `DataFrameControl.write` packs: `length & 0x3ffffff`,
or-ed with `(headerLength & 0x3f) << 26` only when `headerLength > 0`. -/
def packLengthWord (length headerLength : ℕ) : ℕ :=
  length % 2 ^ 26 + (if 0 < headerLength then headerLength % 2 ^ 6 * 2 ^ 26 else 0)

/-- `DataFrameControl.write` as the chunk of `headerLength + 8` bytes it
stores at `startIndex`: the two packed words followed by the header bytes
(`frame.set(this.header, startIndex + 8)`, executed only when
`headerLength > 0`, which for a list is the same as appending it). -/
def DataFrameControl.write (d : DataFrameControl) : List ℕ :=
  writeUInt32bytes (packOffsetWord d.offset d.messageNumber d.isFirst d.isLast) ++
    writeUInt32bytes (packLengthWord d.length d.header.length) ++ d.header

/-- `DataFrameControl.read`: unpacks the two words
(`(w & 0xf0000000) >>> 28`, `(w & 0x08000000) !== 0`,
`(w & 0x04000000) !== 0`, `w & 0x03ffffff`, `(w & 0xfc000000) >>> 26`
on the words' unsigned bit patterns), copies `headerLength` header bytes
when `headerLength > 0` (`frame.subarray`), and returns the parsed
structure with the byte count `headerLength + 8`. -/
def DataFrameControl.read (frame : List ℕ) (startIndex : ℕ) : DataFrameControl × ℕ :=
  let word0 := readWord32 frame startIndex
  let word1 := readWord32 frame (startIndex + 4)
  let headerLength := word1 / 2 ^ 26 % 2 ^ 6
  (⟨word0 % 2 ^ 26, word1 % 2 ^ 26, word0 / 2 ^ 28 % 2 ^ 4,
    word0 / 2 ^ 27 % 2 == 1, word0 / 2 ^ 26 % 2 == 1,
    if 0 < headerLength then (frame.drop (startIndex + 8)).take headerLength else []⟩,
   headerLength + 8)

/-- `MessageCancelControl.read`: a big-endian `u16` bitmask, 2 bytes. -/
def MessageCancelControl.read (frame : List ℕ) (startIndex : ℕ) : ℕ × ℕ :=
  (BinaryConverter.readUInt16 frame startIndex, 2)

/-- `MessageCancelControl.write` as the 2-byte chunk it stores. -/
def MessageCancelControl.write (messageNumbers : ℕ) : List ℕ :=
  BinaryConverter.writeUInt16 messageNumbers

/-- The `data` field of a `ControlFrame`: absent (ping/pong),
a `TransportCapabilities`, an array of `DataFrameControl`, or a
`MessageCancelControl` (carrying its `messageNumbers` bitmask). -/
inductive FrameData where
  | none
  | caps (capabilities : TransportCapabilities)
  | dataFrames (frames : List DataFrameControl)
  | cancel (messageNumbers : ℕ)
deriving DecidableEq

structure ControlFrame where
  opCode : ℕ
  rttEstimate : ℕ
  throughputEstimate : ℤ
  data : FrameData
deriving DecidableEq

/-- The descriptor loop of `ControlFrame.read`: reads `count` descriptors
starting at `offset`, each read advancing by the returned byte count. -/
def readDataFrames (count : ℕ) (frame : List ℕ) (offset : ℕ) : List DataFrameControl :=
  match count with
  | 0 => []
  | n + 1 =>
    let r := DataFrameControl.read frame offset
    r.1 :: readDataFrames n frame (offset + r.2)

/-- The opcode dispatch of `ControlFrame.read`, starting at offset 8. -/
def ControlFrame.readData (opCode : ℕ) (frame : List ℕ) : FrameData :=
  if opCode = 0x00 then FrameData.caps (TransportCapabilities.read frame 8)
  else if 0x01 ≤ opCode ∧ opCode ≤ 0x0f then
    FrameData.dataFrames (readDataFrames opCode frame 8)
  else if opCode = 0x12 then FrameData.cancel (MessageCancelControl.read frame 8).1
  else FrameData.none

/-- `ControlFrame.read`: `opCode = frame.getUint8(0)`,
`rttEstimate = frame.getUint16(2)`, `throughputEstimate = frame.getInt32(4)`,
then the opcode-dependent payload from offset 8. -/
def ControlFrame.read (frame : List ℕ) : ControlFrame :=
  ⟨byteAt frame 0, BinaryConverter.readUInt16 frame 2, BinaryConverter.readInt32 frame 4,
   ControlFrame.readData (byteAt frame 0) frame⟩

/-- The opcode-dependent part of `ControlFrame.write` (the source casts
`this.data` according to `this.opCode`; a mismatched shape is arbitrary,
modelled as the empty chunk — the round-trip theorem assumes the shapes
match).  The data-frame loop appends each descriptor's chunk in order. -/
def ControlFrame.writeData (f : ControlFrame) : List ℕ :=
  if f.opCode = 0x00 then
    match f.data with
    | FrameData.caps c => TransportCapabilities.write c
    | _ => []
  else if 0x01 ≤ f.opCode ∧ f.opCode ≤ 0x0f then
    match f.data with
    | FrameData.dataFrames ds => ds.flatMap DataFrameControl.write
    | _ => []
  else if f.opCode = 0x12 then
    match f.data with
    | FrameData.cancel m => MessageCancelControl.write m
    | _ => []
  else []

/-- `ControlFrame.write`: byte 0 is the opcode (`frame[0] = opCode` stores
its low byte), byte 1 stays 0 from the zero-initialised buffer, bytes 2-3
the `u16` RTT, bytes 4-7 the `i32` throughput, then the opcode-dependent
chunk; the returned `DataView` is truncated at the final offset, i.e. is
exactly this concatenation. -/
def ControlFrame.write (f : ControlFrame) : List ℕ :=
  [f.opCode % 2 ^ 8, 0] ++ BinaryConverter.writeUInt16 f.rttEstimate ++
    BinaryConverter.writeInt32 f.throughputEstimate ++ ControlFrame.writeData f

/-- In-range serialized fields of a data-frame descriptor: message number
0-15, offset and length below `2 ^ 26`, header of at most 63 bytes (the
header-length field is 6 bits wide), header entries bytes. -/
@[reducible] def DataFrameControl.WF (d : DataFrameControl) : Prop :=
  d.messageNumber < 2 ^ 4 ∧ d.offset < 2 ^ 26 ∧ d.length < 2 ^ 26 ∧
    d.header.length ≤ 63 ∧ ∀ b ∈ d.header, b < 2 ^ 8

/-- The frame's `data` matches its opcode and all serialized fields are in
range. -/
@[reducible] def ControlFrame.WFdata (f : ControlFrame) : Prop :=
  match f.data with
  | FrameData.none => f.opCode = 0x10 ∨ f.opCode = 0x11
  | FrameData.caps c => f.opCode = 0x00 ∧ c.majorVersion < 2 ^ 16 ∧ c.minorVersion < 2 ^ 16 ∧
      -2 ^ 31 ≤ c.capabilities1 ∧ c.capabilities1 < 2 ^ 31
  | FrameData.dataFrames ds => 0x01 ≤ f.opCode ∧ f.opCode ≤ 0x0f ∧ ds.length = f.opCode ∧
      ∀ d ∈ ds, DataFrameControl.WF d
  | FrameData.cancel m => f.opCode = 0x12 ∧ m < 2 ^ 16

/-! ## Theorems -/

theorem MovingAverage.record_maxValues (s : MovingAverage) (v : ℚ) :
    (s.record v).maxValues = s.maxValues := by
  simp only [MovingAverage.record]
  split <;> rfl

theorem MovingAverage.record_spec (s : MovingAverage) (v : ℚ)
    (hwf : s.WF) (hN : 1 ≤ s.maxValues) :
    (s.record v).WF ∧
    (s.record v).values = (s.values ++ [v]).drop (s.values.length + 1 - s.maxValues) := by
  obtain ⟨hsum, hlen, _⟩ := hwf
  simp only [MovingAverage.record]
  split
  · rename_i hover
    simp only [List.length_append, List.length_cons, List.length_nil] at hover
    have hn : s.values.length = s.maxValues := by omega
    have hne : s.values ≠ [] := by
      intro h
      rw [h] at hn
      simp only [List.length_nil] at hn
      omega
    obtain ⟨a, l, h⟩ := List.exists_cons_of_ne_nil hne
    rw [h] at hsum hn ⊢
    simp only [List.length_cons] at hn
    constructor
    · refine ⟨?_, ?_, ?_⟩
      · simp only [MovingAverage.WF, List.cons_append, List.headD_cons, List.tail_cons,
          hsum, List.sum_cons, List.sum_append, List.sum_nil]
        ring
      · simp only [List.cons_append, List.tail_cons, List.length_append,
          List.length_cons, List.length_nil]
        omega
      · rfl
    · simp only [List.cons_append, List.tail_cons, List.headD_cons]
      have hone : (a :: l).length + 1 - s.maxValues = 1 := by
        simp only [List.length_cons]
        omega
      rw [hone]
      simp
  · rename_i hfit
    simp only [List.length_append, List.length_cons, List.length_nil] at hfit
    constructor
    · refine ⟨?_, ?_, ?_⟩
      · simp [hsum]
      · simp only [List.length_append, List.length_cons, List.length_nil]
        omega
      · rfl
    · have hzero : s.values.length + 1 - s.maxValues = 0 := by omega
      rw [hzero]
      simp

theorem MovingAverage.recordAll_spec (xs : List ℚ) (s : MovingAverage)
    (hwf : s.WF) (hN : 1 ≤ s.maxValues) :
    (s.recordAll xs).WF ∧
    (s.recordAll xs).maxValues = s.maxValues ∧
    (s.recordAll xs).values =
      (s.values ++ xs).drop (s.values.length + xs.length - s.maxValues) := by
  induction xs generalizing s with
  | nil =>
    refine ⟨hwf, rfl, ?_⟩
    have hzero : s.values.length + ([] : List ℚ).length - s.maxValues = 0 := by
      have := hwf.2.1
      simp only [List.length_nil]
      omega
    rw [hzero]
    simp [MovingAverage.recordAll]
  | cons x xs ih =>
    obtain ⟨hwf1, hvals1⟩ := MovingAverage.record_spec s x hwf hN
    have hmax1 : (s.record x).maxValues = s.maxValues := MovingAverage.record_maxValues s x
    have hN1 : 1 ≤ (s.record x).maxValues := by rw [hmax1]; exact hN
    obtain ⟨hwf2, hmax2, hvals2⟩ := ih (s.record x) hwf1 hN1
    have hrec : s.recordAll (x :: xs) = (s.record x).recordAll xs := rfl
    refine ⟨hrec ▸ hwf2, by rw [hrec, hmax2, hmax1], ?_⟩
    rw [hrec, hvals2, hvals1, hmax1]
    have hle : s.values.length + 1 - s.maxValues ≤ (s.values ++ [x]).length := by
      simp only [List.length_append, List.length_cons, List.length_nil]
      omega
    rw [← List.drop_append_of_le_length hle, List.drop_drop]
    have hassoc : (s.values ++ [x]) ++ xs = s.values ++ x :: xs := by simp
    rw [hassoc]
    congr 1
    have := hwf.2.1
    simp only [List.length_drop, List.length_append, List.length_cons, List.length_nil]
    omega

/-- C9: moving-average window.  After constructing a `MovingAverage` with
window size `N ≥ 1` and recording the samples `xs` after the initial
construction-time value, the retained count never exceeds `N`, the stored
sum is the sum of the retained samples, `value()` is the floor of that
sum divided by the count, and as soon as `xs.length ≥ N` the retained
samples are exactly the last `N` recorded ones, so
`value() = ⌊(sum of last N samples) / N⌋`. -/
theorem movingAverage_window (N : ℕ) (initialValue : ℚ) (xs : List ℚ) (hN : 1 ≤ N) :
    (movingAverageFinal initialValue N xs).values.length ≤ N ∧
    (movingAverageFinal initialValue N xs).sum =
      (movingAverageFinal initialValue N xs).values.sum ∧
    (movingAverageFinal initialValue N xs).average =
      ⌊(movingAverageFinal initialValue N xs).values.sum /
        ((movingAverageFinal initialValue N xs).values.length : ℚ)⌋ ∧
    (N ≤ xs.length →
      (movingAverageFinal initialValue N xs).values = xs.drop (xs.length - N) ∧
      (movingAverageFinal initialValue N xs).average =
        ⌊(xs.drop (xs.length - N)).sum / (N : ℚ)⌋) := by
  have hwf0 : MovingAverage.WF ⟨N, [], 0, 0⟩ := by
    refine ⟨by simp, by simp, by simp⟩
  have hinit := MovingAverage.record_spec ⟨N, [], 0, 0⟩ initialValue hwf0 hN
  have hinitmax : (MovingAverage.initial initialValue N).maxValues = N :=
    MovingAverage.record_maxValues _ _
  have hinitvals : (MovingAverage.initial initialValue N).values = [initialValue] := by
    have := hinit.2
    simp only [List.nil_append, List.length_nil] at this
    rw [MovingAverage.initial, this]
    have hzero : 0 + 1 - N = 0 := by omega
    rw [hzero]
    simp
  have hN1 : 1 ≤ (MovingAverage.initial initialValue N).maxValues := by
    rw [hinitmax]; exact hN
  obtain ⟨hwf, hmax, hvals⟩ :=
    MovingAverage.recordAll_spec xs (MovingAverage.initial initialValue N) hinit.1 hN1
  rw [hinitvals, hinitmax] at hvals
  simp only [List.length_cons, List.length_nil] at hvals
  have hfinal : movingAverageFinal initialValue N xs =
      (MovingAverage.initial initialValue N).recordAll xs := rfl
  obtain ⟨hsum, hlen, havg⟩ := hwf
  rw [hmax, hinitmax] at hlen
  refine ⟨by rw [hfinal]; exact hlen, by rw [hfinal]; exact hsum, ?_, ?_⟩
  · rw [hfinal, havg, hsum]
  · intro hk
    have hvals2 : (movingAverageFinal initialValue N xs).values = xs.drop (xs.length - N) := by
      rw [hfinal, hvals]
      have hidx : 0 + 1 + xs.length - N = (xs.length - N) + 1 := by omega
      rw [hidx]
      simp
    refine ⟨hvals2, ?_⟩
    have hlenN : (xs.drop (xs.length - N)).length = N := by
      simp only [List.length_drop]
      omega
    rw [hfinal] at hvals2 ⊢
    rw [havg, hsum, hvals2, hlenN]

/-- C9 witness: window `N = 2`, initial value 5, samples `[1, 2, 3]`. -/
theorem movingAverage_window_witness :
    1 ≤ 2 ∧
    ((movingAverageFinal 5 2 [1, 2, 3]).values.length ≤ 2 ∧
    (movingAverageFinal 5 2 [1, 2, 3]).sum =
      (movingAverageFinal 5 2 [1, 2, 3]).values.sum ∧
    (movingAverageFinal 5 2 [1, 2, 3]).average =
      ⌊(movingAverageFinal 5 2 [1, 2, 3]).values.sum /
        ((movingAverageFinal 5 2 [1, 2, 3]).values.length : ℚ)⌋ ∧
    (2 ≤ ([1, 2, 3] : List ℚ).length →
      (movingAverageFinal 5 2 [1, 2, 3]).values =
        ([1, 2, 3] : List ℚ).drop (([1, 2, 3] : List ℚ).length - 2) ∧
      (movingAverageFinal 5 2 [1, 2, 3]).average =
        ⌊(([1, 2, 3] : List ℚ).drop (([1, 2, 3] : List ℚ).length - 2)).sum / ((2 : ℕ) : ℚ)⌋)) :=
  ⟨by decide, movingAverage_window 2 5 [1, 2, 3] (by decide)⟩

/-- C7: the capability bitmask constants and the local capability set.  The
code agrees with the claim on bits 0 and 1 and on
`getLocalCapabilties()` (version 1.1, bitmask 3), but defines the
capability-extension flag `Capabilities2` as `2147483647` = `2^31 - 1`
(bits 0 through 30), not the claimed bit 31 (`2^31 = 2147483648`).  The
constant contradicts the source doc comment ("The highest bit is
reserved...") and the C# original (`Capabilities2 = int.MinValue`, whose
bit pattern is exactly bit 31), so this is a slip in the TypeScript port. -/
theorem capabilityBits_values :
    TransportCapabilities1.Capabilities = 1 ∧
    TransportCapabilities1.CancelMessage = 2 ∧
    TransportCapabilities.getLocalCapabilties =
      ⟨1, 1, TransportCapabilities1.Capabilities + TransportCapabilities1.CancelMessage⟩ ∧
    TransportCapabilities.getLocalCapabilties.capabilities1 = 3 ∧
    TransportCapabilities1.Capabilities2 = 2147483647 ∧
    TransportCapabilities1.Capabilities2 ≠ 2 ^ 31 := by
  refine ⟨rfl, rfl, rfl, rfl, rfl, ?_⟩
  decide

/-- C3, counterexample to the claim as stated: when the product
`outboundThroughputEstimate × maxPercentThroughput × targetResponsiveness
/ 100000` is an exact multiple of `singlePacketMtu`, the code produces one
MTU more than the claimed ceiling formula.  Here the product is
`18640 × 75 × 100 / 100000 = 1398 = singlePacketMtu`, the code yields
2796 and the claimed formula yields 1398. -/
theorem bytesBudget_claim_counterexample :
    bytesBudget 18640 75 100 1398 ≠ bytesBudgetSpec 18640 75 100 1398 ∧
    bytesBudget 18640 75 100 1398 = 2796 ∧
    bytesBudgetSpec 18640 75 100 1398 = 1398 := by
  refine ⟨?_, ?_, ?_⟩ <;>
    · simp only [bytesBudget, bytesBudgetSpec]
      norm_num

/-- C3, amended: the byte budget computed by the send loop is
`(⌊product / singlePacketMtu⌋ + 1) × singlePacketMtu`.  This equals the
claimed round-up-to-a-multiple formula
`⌈product / singlePacketMtu⌉ × singlePacketMtu` whenever
`product / singlePacketMtu` is not an integer, and is exactly one
`singlePacketMtu` larger when it is an integer. -/
theorem bytesBudget_eq_spec_plus (T P R mtu : ℚ) :
    bytesBudget T P R mtu =
      bytesBudgetSpec T P R mtu +
        (if ((⌊T * P * R / 100000 / mtu⌋ : ℚ) = T * P * R / 100000 / mtu)
          then mtu else 0) := by
  unfold bytesBudget bytesBudgetSpec
  show ((⌊T * P * R / 100000 / mtu + 1⌋ : ℤ) : ℚ) * mtu =
    ((⌈T * P * R / 100000 / mtu⌉ : ℤ) : ℚ) * mtu +
      (if ((⌊T * P * R / 100000 / mtu⌋ : ℚ) = T * P * R / 100000 / mtu)
        then mtu else 0)
  set y : ℚ := T * P * R / 100000 / mtu with hy
  rw [Int.floor_add_one]
  split
  · rename_i h
    have hceil : (⌈y⌉ : ℤ) = ⌊y⌋ := by
      rw [← h]
      exact_mod_cast Int.ceil_intCast ⌊y⌋
    rw [hceil]
    push_cast
    ring
  · rename_i h
    have h1 : (⌊y⌋ : ℚ) < y := lt_of_le_of_ne (Int.floor_le y) h
    have h2 : ⌊y⌋ + 1 ≤ ⌈y⌉ := by
      have := Int.lt_ceil.mpr h1
      omega
    have h3 : ⌈y⌉ ≤ ⌊y⌋ + 1 := Int.ceil_le_floor_add_one y
    have heq : ⌈y⌉ = ⌊y⌋ + 1 := le_antisymm h3 h2
    rw [heq]
    push_cast
    ring

/-- C6: the re-armed ping delay.  With the base interval selected by the
source (`initialPingInterval` while
`pingCount < pingInterval / initialPingInterval`, else `pingInterval`)
and any uniform draw `r ∈ [0, 1)`, the delay
`interval + interval/2 - r*interval` lies in `[base/2, 3*base/2]`, i.e.
within the base plus or minus 50 percent. -/
theorem randomizedPingInterval_bounds (pingCount pingInterval initialPingInterval r : ℚ)
    (hpi : 0 < pingInterval) (hipi : 0 < initialPingInterval)
    (hr0 : 0 ≤ r) (hr1 : r < 1) :
    pingBaseInterval pingCount pingInterval initialPingInterval / 2 ≤
      randomizedPingInterval (pingBaseInterval pingCount pingInterval initialPingInterval) r ∧
    randomizedPingInterval (pingBaseInterval pingCount pingInterval initialPingInterval) r ≤
      3 * pingBaseInterval pingCount pingInterval initialPingInterval / 2 := by
  have hbase : 0 < pingBaseInterval pingCount pingInterval initialPingInterval := by
    unfold pingBaseInterval
    split <;> assumption
  set b := pingBaseInterval pingCount pingInterval initialPingInterval
  constructor
  · unfold randomizedPingInterval
    nlinarith
  · unfold randomizedPingInterval
    nlinarith

/-- C6 witness: defaults `pingInterval = 15000`, `initialPingInterval = 5000`,
`pingCount = 0`, draw `r = 1/2`. -/
theorem randomizedPingInterval_bounds_witness :
    ((0 : ℚ) < 15000 ∧ (0 : ℚ) < 5000 ∧ (0 : ℚ) ≤ 1 / 2 ∧ (1 / 2 : ℚ) < 1) ∧
    (pingBaseInterval 0 15000 5000 / 2 ≤
      randomizedPingInterval (pingBaseInterval 0 15000 5000) (1 / 2) ∧
    randomizedPingInterval (pingBaseInterval 0 15000 5000) (1 / 2) ≤
      3 * pingBaseInterval 0 15000 5000 / 2) :=
  ⟨⟨by norm_num, by norm_num, by norm_num, by norm_num⟩,
    randomizedPingInterval_bounds 0 15000 5000 (1 / 2)
      (by norm_num) (by norm_num) (by norm_num) (by norm_num)⟩

/-! ### SendQueue lemmas -/

theorem contentAtL_cons_succ (o : Option (List OutgoingMessage)) (t) (j : ℕ) :
    contentAtL (o :: t) (j + 1) = contentAtL t j := rfl

theorem contentAtL_cons_zero (o : Option (List OutgoingMessage)) (t) :
    contentAtL (o :: t) 0 = o.getD [] := rfl

theorem contentAtL_set_ne (qs : List (Option (List OutgoingMessage))) (q j : ℕ) (a)
    (hne : j ≠ q) : contentAtL (qs.set q a) j = contentAtL qs j := by
  unfold contentAtL
  rw [List.getD_eq_getD_get?, List.getD_eq_getD_get?,
    List.get?_set_ne _ _ (fun h => hne h.symm)]

theorem contentAtL_set_eq (qs : List (Option (List OutgoingMessage))) (q : ℕ) (l)
    (hlt : q < qs.length) : contentAtL (qs.set q (some l)) q = l := by
  unfold contentAtL
  rw [List.getD_eq_getD_get?, List.get?_set_eq_of_lt _ hlt]
  rfl

theorem getNextLoop_all_empty (maxBytes : ℕ) (queues : List (Option (List OutgoingMessage))) :
    ∀ fuel p hp, (∀ j, p ≤ j → j < queues.length → contentAtL queues j = []) →
    ∃ hp2, SendQueue.getNextLoop maxBytes queues hp p fuel = (none, queues, hp2) := by
  intro fuel
  induction fuel with
  | zero => exact fun p hp _ => ⟨hp, rfl⟩
  | succ fuel ih =>
    intro p hp hempty
    simp only [SendQueue.getNextLoop]
    by_cases hlt : p < queues.length
    · simp only [hlt, if_true]
      have hc : contentAtL queues p = [] := hempty p le_rfl hlt
      unfold contentAtL at hc
      rcases hq : queues.getD p none with _ | q
      · exact ih (p + 1) hp (fun j h1 h2 => hempty j (by omega) h2)
      · rw [hq] at hc
        simp only [Option.getD_some] at hc
        subst hc
        exact ih (p + 1) (hp + 1) (fun j h1 h2 => hempty j (by omega) h2)
    · simp only [hlt, if_false]
      exact ⟨hp, rfl⟩

theorem getNextLoop_found (maxBytes : ℕ) (queues : List (Option (List OutgoingMessage)))
    (q : ℕ) (m : OutgoingMessage) (rest : List OutgoingMessage)
    (hq : queues.getD q none = some (m :: rest))
    (hready : readyFor maxBytes m) (hqlen : q < queues.length) :
    ∀ fuel p hp, p ≤ q → hp ≤ p → queues.length ≤ fuel + p →
    (∀ j, p ≤ j → j < q → contentAtL queues j = []) →
    ∃ hp2, SendQueue.getNextLoop maxBytes queues hp p fuel =
      (some (m, min m.getBytesReady maxBytes), queues.set q (some rest), hp2) ∧ hp2 ≤ q := by
  intro fuel
  induction fuel with
  | zero => intro p hp h1 h2 h3 _; omega
  | succ fuel ih =>
    intro p hp hpq hhp hfuel hempty
    have hlt : p < queues.length := by omega
    simp only [SendQueue.getNextLoop, hlt, if_true]
    rcases Nat.eq_or_lt_of_le hpq with heq | hplt
    · subst heq
      simp only [hq]
      obtain ⟨hr1, hr2, hr3⟩ := hready
      rw [if_pos hr1, if_pos (And.intro hr2 hr3)]
      exact ⟨hp, rfl, hhp⟩
    · have hc : contentAtL queues p = [] := hempty p le_rfl hplt
      unfold contentAtL at hc
      rcases hgp : queues.getD p none with _ | l
      · exact ih (p + 1) hp (by omega) (by omega) (by omega)
          (fun j h1 h2 => hempty j (by omega) h2)
      · rw [hgp] at hc
        simp only [Option.getD_some] at hc
        subst hc
        exact ih (p + 1) (hp + 1) (by omega) (by omega) (by omega)
          (fun j h1 h2 => hempty j (by omega) h2)

theorem joinContents_eq_nil (qs : List (Option (List OutgoingMessage))) :
    joinContents qs = [] ↔ ∀ j, j < qs.length → contentAtL qs j = [] := by
  induction qs with
  | nil => simp [joinContents]
  | cons o t ih =>
    simp only [joinContents, List.append_eq_nil, ih, List.length_cons]
    constructor
    · rintro ⟨h0, ht⟩ j hj
      cases j with
      | zero => rw [contentAtL_cons_zero, h0]
      | succ j => rw [contentAtL_cons_succ]; exact ht j (by omega)
    · intro h
      refine ⟨?_, fun j hj => ?_⟩
      · have h0 := h 0 (by omega)
        rwa [contentAtL_cons_zero] at h0
      · have hs := h (j + 1) (by omega)
        rwa [contentAtL_cons_succ] at hs

theorem exists_least_nonempty (qs : List (Option (List OutgoingMessage)))
    (h : joinContents qs ≠ []) :
    ∃ q, q < qs.length ∧ contentAtL qs q ≠ [] ∧ ∀ j, j < q → contentAtL qs j = [] := by
  induction qs with
  | nil => simp [joinContents] at h
  | cons o t ih =>
    by_cases h0 : o.getD [] = []
    · have ht : joinContents t ≠ [] := by
        simp only [joinContents, h0, List.nil_append] at h
        exact h
      obtain ⟨q, hq1, hq2, hq3⟩ := ih ht
      refine ⟨q + 1, by simp only [List.length_cons]; omega, ?_, ?_⟩
      · rwa [contentAtL_cons_succ]
      · intro j hj
        cases j with
        | zero => rw [contentAtL_cons_zero]; exact h0
        | succ j => rw [contentAtL_cons_succ]; exact hq3 j (by omega)
    · exact ⟨0, by simp only [List.length_cons]; omega,
        by rwa [contentAtL_cons_zero], fun j hj => by omega⟩

theorem join_set_cons (qs : List (Option (List OutgoingMessage))) :
    ∀ q m rest, contentAtL qs q = m :: rest → q < qs.length →
    (∀ j, j < q → contentAtL qs j = []) →
    joinContents qs = m :: joinContents (qs.set q (some rest)) := by
  induction qs with
  | nil => intro q m rest _ h; simp at h
  | cons o t ih =>
    intro q m rest hq hlt hempty
    cases q with
    | zero =>
      rw [contentAtL_cons_zero] at hq
      simp only [List.set_cons_zero, joinContents, hq, Option.getD_some, List.cons_append]
    | succ q =>
      rw [contentAtL_cons_succ] at hq
      have hlt2 : q < t.length := by
        simp only [List.length_cons] at hlt
        omega
      have h0 : o.getD [] = [] := by
        have hz := hempty 0 (by omega)
        rwa [contentAtL_cons_zero] at hz
      have hrest : ∀ j, j < q → contentAtL t j = [] := by
        intro j hj
        have hs := hempty (j + 1) (by omega)
        rwa [contentAtL_cons_succ] at hs
      simp only [List.set_cons_succ, joinContents, h0, List.nil_append]
      exact ih q m rest hq hlt2 hrest

theorem drain_eq_join (maxBytes : ℕ) :
    ∀ fuel (s : SendQueue),
    (∀ p m1, m1 ∈ contentAtL s.messageQueues p → readyFor maxBytes m1) →
    (∀ j, j < s.highestPriority → contentAtL s.messageQueues j = []) →
    (joinContents s.messageQueues).length ≤ fuel →
    SendQueue.drain fuel maxBytes s = joinContents s.messageQueues := by
  intro fuel
  induction fuel with
  | zero =>
    intro s _ _ hfuel
    have hnil : joinContents s.messageQueues = [] := by
      cases hj : joinContents s.messageQueues with
      | nil => rfl
      | cons a l => rw [hj] at hfuel; simp at hfuel
    rw [hnil]
    rfl
  | succ fuel ih =>
    intro s hready hInv hfuel
    by_cases hj : joinContents s.messageQueues = []
    · have hempty := (joinContents_eq_nil s.messageQueues).mp hj
      obtain ⟨hp2, hloop⟩ := getNextLoop_all_empty maxBytes s.messageQueues
        s.messageQueues.length s.highestPriority s.highestPriority
        (fun j _ h2 => hempty j h2)
      have hgn : SendQueue.getNext maxBytes s = (none, ⟨s.messageQueues, hp2⟩) := by
        unfold SendQueue.getNext
        rw [hloop]
      rw [hj]
      simp only [SendQueue.drain, hgn]
    · obtain ⟨q, hqlen, hqne, hqempty⟩ := exists_least_nonempty s.messageQueues hj
      rcases hcq : contentAtL s.messageQueues q with _ | ⟨m, rest⟩
      · exact absurd hcq hqne
      have hgq : s.messageQueues.getD q none = some (m :: rest) := by
        unfold contentAtL at hcq
        rcases hg : s.messageQueues.getD q none with _ | l
        · rw [hg] at hcq; simp at hcq
        · rw [hg] at hcq
          simp only [Option.getD_some] at hcq
          rw [hcq]
      have hhpq : s.highestPriority ≤ q := by
        by_contra hcon
        exact hqne (hInv q (by omega))
      have hreadym : readyFor maxBytes m :=
        hready q m (by rw [hcq]; exact List.mem_cons_self m rest)
      obtain ⟨hp2, hloop, hhp2⟩ := getNextLoop_found maxBytes s.messageQueues q m rest hgq
        hreadym hqlen s.messageQueues.length s.highestPriority s.highestPriority
        hhpq le_rfl (by omega) (fun j h1 h2 => hqempty j h2)
      set s2 : SendQueue := ⟨s.messageQueues.set q (some rest), hp2⟩ with hs2
      have hs2q : s2.messageQueues = s.messageQueues.set q (some rest) := rfl
      have hs2hp : s2.highestPriority = hp2 := rfl
      have hgn : SendQueue.getNext maxBytes s =
          (some (m, min m.getBytesReady maxBytes), s2) := by
        unfold SendQueue.getNext
        rw [hloop]
      have hjoin := join_set_cons s.messageQueues q m rest hcq hqlen hqempty
      have hready2 : ∀ p m1, m1 ∈ contentAtL s2.messageQueues p → readyFor maxBytes m1 := by
        intro p m1 hm1
        rw [hs2q] at hm1
        by_cases hpq : p = q
        · subst hpq
          rw [contentAtL_set_eq _ _ _ hqlen] at hm1
          exact hready p m1 (by rw [hcq]; exact List.mem_cons_of_mem m hm1)
        · rw [contentAtL_set_ne _ _ _ _ hpq] at hm1
          exact hready p m1 hm1
      have hInv2 : ∀ j, j < s2.highestPriority → contentAtL s2.messageQueues j = [] := by
        intro j hjlt
        rw [hs2hp] at hjlt
        have hjq : j ≠ q := by omega
        rw [hs2q, contentAtL_set_ne _ _ _ _ hjq]
        exact hqempty j (by omega)
      have hfuel2 : (joinContents s2.messageQueues).length ≤ fuel := by
        rw [hs2q]
        have hlen : (joinContents s.messageQueues).length =
            (joinContents (s.messageQueues.set q (some rest))).length + 1 := by
          rw [hjoin]; rfl
        omega
      have hih := ih s2 hready2 hInv2 hfuel2
      simp only [SendQueue.drain, hgn]
      rw [hih, hs2q, ← hjoin]

theorem SendQueue.enqueue_messageQueues (s : SendQueue) (m : OutgoingMessage) :
    (s.enqueue m).messageQueues =
      s.messageQueues.set m.priority
        (some (contentAtL s.messageQueues m.priority ++ [m])) := rfl

theorem SendQueue.enqueue_highestPriority (s : SendQueue) (m : OutgoingMessage) :
    (s.enqueue m).highestPriority = min s.highestPriority m.priority := rfl

theorem contentAtL_enqueue (s : SendQueue) (m : OutgoingMessage)
    (hlt : m.priority < s.messageQueues.length) (j : ℕ) :
    contentAtL (s.enqueue m).messageQueues j =
      if j = m.priority then contentAtL s.messageQueues j ++ [m]
      else contentAtL s.messageQueues j := by
  rw [SendQueue.enqueue_messageQueues]
  by_cases h : j = m.priority
  · subst h
    rw [contentAtL_set_eq _ _ _ hlt, if_pos rfl]
  · rw [contentAtL_set_ne _ _ _ _ h, if_neg h]

theorem enqueueAll_spec (ms : List OutgoingMessage) :
    ∀ (s : SendQueue), (∀ m ∈ ms, m.priority < s.messageQueues.length) →
    (SendQueue.enqueueAll s ms).messageQueues.length = s.messageQueues.length ∧
    (SendQueue.enqueueAll s ms).highestPriority ≤ s.highestPriority ∧
    ∀ j, contentAtL (SendQueue.enqueueAll s ms).messageQueues j =
      contentAtL s.messageQueues j ++ ms.filter (fun m1 => decide (m1.priority = j)) := by
  induction ms with
  | nil =>
    intro s _
    refine ⟨rfl, le_rfl, fun j => ?_⟩
    simp [SendQueue.enqueueAll]
  | cons m ms ih =>
    intro s hpri
    have hmp : m.priority < s.messageQueues.length := hpri m (List.mem_cons_self m ms)
    have hlen1 : (s.enqueue m).messageQueues.length = s.messageQueues.length := by
      rw [SendQueue.enqueue_messageQueues, List.length_set]
    have hstep : SendQueue.enqueueAll s (m :: ms) = SendQueue.enqueueAll (s.enqueue m) ms := rfl
    obtain ⟨ihlen, ihhp, ihcontent⟩ := ih (s.enqueue m)
      (fun m1 hm1 => by rw [hlen1]; exact hpri m1 (List.mem_cons_of_mem m hm1))
    refine ⟨by rw [hstep, ihlen, hlen1], ?_, fun j => ?_⟩
    · rw [hstep]
      calc (SendQueue.enqueueAll (s.enqueue m) ms).highestPriority
          ≤ (s.enqueue m).highestPriority := ihhp
        _ = min s.highestPriority m.priority := rfl
        _ ≤ s.highestPriority := min_le_left _ _
    · rw [hstep, ihcontent j, contentAtL_enqueue s m hmp j, List.filter_cons]
      by_cases h : j = m.priority
      · subst h
        simp [List.append_assoc]
      · have hd : decide (m.priority = j) = false := by
          simp only [decide_eq_false_iff_not]
          exact fun hc => h hc.symm
        rw [if_neg h, hd]
        simp

theorem joinContents_eq_flatMap (qs : List (Option (List OutgoingMessage))) :
    joinContents qs = (List.range qs.length).flatMap (fun p => contentAtL qs p) := by
  induction qs with
  | nil => rfl
  | cons o t ih =>
    simp only [joinContents, List.length_cons, List.range_succ_eq_map, List.flatMap_cons,
      List.flatMap_map]
    rw [ih]
    rfl

theorem flatMap_cons_bucket_perm (m : OutgoingMessage) :
    ∀ (l : List ℕ), l.Nodup → ∀ p0, p0 ∈ l →
    ∀ f g : ℕ → List OutgoingMessage,
    (∀ p ∈ l, p ≠ p0 → f p = g p) → f p0 = m :: g p0 →
    List.Perm (l.flatMap f) (m :: l.flatMap g) := by
  intro l
  induction l with
  | nil =>
    intro _ p0 h
    simp at h
  | cons a t ih =>
    intro hnd p0 hmem f g hfg hf0
    simp only [List.flatMap_cons]
    by_cases hap : a = p0
    · subst hap
      have hnotin : a ∉ t := (List.nodup_cons.mp hnd).1
      have ht : t.flatMap f = t.flatMap g :=
        List.flatMap_congr (fun p hp => hfg p (List.mem_cons_of_mem a hp)
          (fun h => hnotin (h ▸ hp)))
      rw [hf0, ht, List.cons_append]
    · have hmem2 : p0 ∈ t := by
        rcases List.mem_cons.mp hmem with h | h
        · exact absurd h.symm hap
        · exact h
      have hfa : f a = g a := hfg a (List.mem_cons_self a t) hap
      have ihp := ih (List.nodup_cons.mp hnd).2 p0 hmem2 f g
        (fun p hp hne => hfg p (List.mem_cons_of_mem a hp) hne) hf0
      rw [← hfa]
      exact (List.Perm.append_left (f a) ihp).trans List.perm_middle

theorem priorityOrder_perm (L : ℕ) (ms : List OutgoingMessage)
    (h : ∀ m ∈ ms, m.priority < L) : List.Perm (priorityOrder L ms) ms := by
  induction ms with
  | nil => simp [priorityOrder]
  | cons m ms ih =>
    have hperm := flatMap_cons_bucket_perm m (List.range L) (List.nodup_range L)
      m.priority (List.mem_range.mpr (h m (List.mem_cons_self m ms)))
      (fun p => (m :: ms).filter (fun m1 => decide (m1.priority = p)))
      (fun p => ms.filter (fun m1 => decide (m1.priority = p)))
      (fun p _ hne => by
        show List.filter (fun m1 => decide (m1.priority = p)) (m :: ms) =
          List.filter (fun m1 => decide (m1.priority = p)) ms
        rw [List.filter_cons]
        have hd : decide (m.priority = p) = false := by
          simp only [decide_eq_false_iff_not]
          exact fun hc => hne hc.symm
        rw [hd]
        simp)
      (by
        show List.filter (fun m1 => decide (m1.priority = m.priority)) (m :: ms) =
          m :: List.filter (fun m1 => decide (m1.priority = m.priority)) ms
        rw [List.filter_cons]
        simp)
    exact hperm.trans (List.Perm.cons m
      (ih (fun m1 hm1 => h m1 (List.mem_cons_of_mem m hm1))))

theorem contentAtL_replicate_none (L j : ℕ) :
    contentAtL (List.replicate L (none : Option (List OutgoingMessage))) j = [] := by
  unfold contentAtL
  rcases Nat.lt_or_ge j L with h | h
  · rw [List.getD_eq_getElem _ _ (by simpa using h)]
    simp
  · rw [List.getD_eq_default _ _ (by simpa using h)]
    rfl

/-- C2, counterexample to the claim as stated: with `getNext` calls
interleaved between the enqueues, the return order need not be the sorted
order of all the enqueued messages.  Both messages are fully ready
whenever they are at a head (`bytesReady = 10 > 0`).  Enqueue a
priority-1 message, drain it, then enqueue a priority-0 message and drain
it: `getNext` returns them as `[priority 1, priority 0]`, but sorting on
(priority, enqueue order) gives `[priority 0, priority 1]`. -/
theorem sendQueue_interleaving_counterexample :
    (SendQueue.runOps (SendQueue.init 16)
      [SendOp.enq ⟨1, 1, 10, 10, 0⟩, SendOp.next 100,
       SendOp.enq ⟨2, 0, 10, 10, 0⟩, SendOp.next 100]).2 =
      [⟨1, 1, 10, 10, 0⟩, ⟨2, 0, 10, 10, 0⟩] ∧
    priorityOrder 16 [⟨1, 1, 10, 10, 0⟩, ⟨2, 0, 10, 10, 0⟩] =
      [⟨2, 0, 10, 10, 0⟩, ⟨1, 1, 10, 10, 0⟩] ∧
    (SendQueue.runOps (SendQueue.init 16)
      [SendOp.enq ⟨1, 1, 10, 10, 0⟩, SendOp.next 100,
       SendOp.enq ⟨2, 0, 10, 10, 0⟩, SendOp.next 100]).2 ≠
      priorityOrder 16 [⟨1, 1, 10, 10, 0⟩, ⟨2, 0, 10, 10, 0⟩] := by
  refine ⟨by decide, by decide, by decide⟩

/-- C2, amended: when the messages `ms` are all enqueued (in order) into a
fresh `SendQueue` with `priorityLevels = L` before any `getNext` call,
each with its whole payload ready and within the byte budget, draining
the queue returns exactly the messages sorted on (priority ascending,
enqueue order); and `enqueue` updates the cached highest-priority cursor
to `min(cursor, m.priority)`. -/
theorem sendQueue_priority_order (L maxBytes : ℕ) (ms : List OutgoingMessage)
    (hpri : ∀ m ∈ ms, m.priority < L)
    (hready : ∀ m ∈ ms, 0 < m.getBytesReady ∧ m.getBytesReady = m.getBytesRemaining ∧
      m.getBytesReady ≤ maxBytes) :
    SendQueue.drain ms.length maxBytes (SendQueue.enqueueAll (SendQueue.init L) ms) =
      priorityOrder L ms ∧
    ∀ (s : SendQueue) (m1 : OutgoingMessage),
      (s.enqueue m1).highestPriority = min s.highestPriority m1.priority := by
  refine ⟨?_, fun s m1 => rfl⟩
  have hinitlen : (SendQueue.init L).messageQueues.length = L := by
    simp [SendQueue.init]
  have hinitcontent : ∀ j, contentAtL (SendQueue.init L).messageQueues j = [] :=
    fun j => contentAtL_replicate_none L j
  obtain ⟨hlen, hhp, hcontent⟩ := enqueueAll_spec ms (SendQueue.init L)
    (by rw [hinitlen]; exact hpri)
  have hcontentF : ∀ j, contentAtL (SendQueue.enqueueAll (SendQueue.init L) ms).messageQueues j =
      ms.filter (fun m1 => decide (m1.priority = j)) := by
    intro j
    rw [hcontent j, hinitcontent j, List.nil_append]
  have hlenF : (SendQueue.enqueueAll (SendQueue.init L) ms).messageQueues.length = L := by
    rw [hlen, hinitlen]
  have hhpF : (SendQueue.enqueueAll (SendQueue.init L) ms).highestPriority = 0 := by
    have h0 : (SendQueue.init L).highestPriority = 0 := rfl
    omega
  have hjoinF : joinContents (SendQueue.enqueueAll (SendQueue.init L) ms).messageQueues =
      priorityOrder L ms := by
    rw [joinContents_eq_flatMap, hlenF]
    exact List.flatMap_congr (fun p _ => hcontentF p)
  have hperm := priorityOrder_perm L ms hpri
  have hjlen : (joinContents (SendQueue.enqueueAll (SendQueue.init L) ms).messageQueues).length =
      ms.length := by
    rw [hjoinF]
    exact hperm.length_eq
  have hdrain := drain_eq_join maxBytes ms.length (SendQueue.enqueueAll (SendQueue.init L) ms)
    (fun p m1 hm1 => by
      rw [hcontentF p] at hm1
      exact hready m1 (List.mem_of_mem_filter hm1))
    (fun j hj => by rw [hhpF] at hj; omega)
    (by omega)
  rw [hdrain, hjoinF]

/-- C2 witness: three fully-ready messages with priorities 3, 0, 3 drain
in sorted order from a 16-level queue. -/
theorem sendQueue_priority_order_witness :
    ((∀ m ∈ [(⟨1, 3, 10, 10, 0⟩ : OutgoingMessage), ⟨2, 0, 10, 10, 0⟩, ⟨3, 3, 10, 10, 0⟩],
        m.priority < 16) ∧
      (∀ m ∈ [(⟨1, 3, 10, 10, 0⟩ : OutgoingMessage), ⟨2, 0, 10, 10, 0⟩, ⟨3, 3, 10, 10, 0⟩],
        0 < m.getBytesReady ∧ m.getBytesReady = m.getBytesRemaining ∧
          m.getBytesReady ≤ 100)) ∧
    (SendQueue.drain
        ([(⟨1, 3, 10, 10, 0⟩ : OutgoingMessage), ⟨2, 0, 10, 10, 0⟩, ⟨3, 3, 10, 10, 0⟩]).length
        100
        (SendQueue.enqueueAll (SendQueue.init 16)
          [⟨1, 3, 10, 10, 0⟩, ⟨2, 0, 10, 10, 0⟩, ⟨3, 3, 10, 10, 0⟩]) =
      priorityOrder 16 [⟨1, 3, 10, 10, 0⟩, ⟨2, 0, 10, 10, 0⟩, ⟨3, 3, 10, 10, 0⟩] ∧
    ∀ (s : SendQueue) (m1 : OutgoingMessage),
      (s.enqueue m1).highestPriority = min s.highestPriority m1.priority) :=
  ⟨⟨by decide, by decide⟩,
    sendQueue_priority_order 16 100
      [⟨1, 3, 10, 10, 0⟩, ⟨2, 0, 10, 10, 0⟩, ⟨3, 3, 10, 10, 0⟩]
      (by decide) (by decide)⟩

/-! ### SendQueue.cancel lemmas -/

theorem filter_ne_of_not_mem (l : List OutgoingMessage) (m : OutgoingMessage)
    (h : m ∉ l) : l.filter (fun e => decide (e ≠ m)) = l := by
  induction l with
  | nil => rfl
  | cons a t ih =>
    have ha : a ≠ m := fun hc => h (by rw [← hc]; exact List.mem_cons_self a t)
    have ht : m ∉ t := fun hc => h (List.mem_cons_of_mem a hc)
    rw [List.filter_cons, if_pos (by simpa using ha), ih ht]

theorem filter_ne_middle (pre post : List OutgoingMessage) (m : OutgoingMessage)
    (hpre : m ∉ pre) (hpost : m ∉ post) :
    (pre ++ m :: post).filter (fun e => decide (e ≠ m)) = pre ++ post := by
  rw [List.filter_append, List.filter_cons, if_neg (by simp),
    filter_ne_of_not_mem _ _ hpre, filter_ne_of_not_mem _ _ hpost]

theorem any_eq_middle (pre post : List OutgoingMessage) (m : OutgoingMessage) :
    (pre ++ m :: post).any (fun e => decide (e = m)) = true := by
  simp [List.any_append, List.any_cons]

theorem sendQueue_cancel_found (s : SendQueue) (m : OutgoingMessage)
    (pre post : List OutgoingMessage)
    (hq : s.queueAt m.priority = some (pre ++ m :: post))
    (hpre : m ∉ pre) (hpost : m ∉ post) :
    SendQueue.cancel s m =
      (true, ⟨s.messageQueues.set m.priority (some (pre ++ post)), s.highestPriority⟩) := by
  unfold SendQueue.cancel
  cases pre with
  | nil =>
    simp only [List.nil_append] at hq ⊢
    simp only [hq]
    cases post with
    | nil =>
      simp
    | cons b post2 =>
      rw [if_neg (show b :: post2 ≠ [] by simp)]
      have hfilter : (m :: b :: post2).filter (fun e => decide (e ≠ m)) = b :: post2 :=
        filter_ne_middle [] (b :: post2) m hpre hpost
      have hany : (m :: b :: post2).any (fun e => decide (e = m)) = true :=
        any_eq_middle [] (b :: post2) m
      rw [hfilter, hany]
  | cons a pre2 =>
    simp only [List.cons_append] at hq ⊢
    simp only [hq]
    have hne : pre2 ++ m :: post ≠ [] := by simp
    rw [if_neg hne]
    have hfilter : (a :: (pre2 ++ m :: post)).filter (fun e => decide (e ≠ m)) =
        a :: (pre2 ++ post) := by
      have h2 := filter_ne_middle (a :: pre2) post m hpre hpost
      simp only [List.cons_append] at h2
      exact h2
    have hany : (a :: (pre2 ++ m :: post)).any (fun e => decide (e = m)) = true := by
      have h2 := any_eq_middle (a :: pre2) post m
      simp only [List.cons_append] at h2
      exact h2
    rw [hfilter, hany]

theorem set_queueAt_self (s : SendQueue) (p : ℕ) (q : List OutgoingMessage)
    (h : s.queueAt p = some q) : s.messageQueues.set p (some q) = s.messageQueues := by
  unfold SendQueue.queueAt at h
  have hlt : p < s.messageQueues.length := by
    by_contra hge
    rw [List.getD_eq_default _ _ (le_of_not_lt hge)] at h
    cases h
  have hget : s.messageQueues.get? p = some (some q) := by
    rw [List.getD_eq_getD_get?] at h
    rcases hg : s.messageQueues.get? p with _ | o
    · rw [hg] at h
      cases h
    · rw [hg] at h
      simp only [Option.getD_some] at h
      rw [h]
  apply List.ext_get?
  intro n
  by_cases hnp : n = p
  · subst hnp
    rw [List.get?_set_eq_of_lt _ hlt]
    exact hget.symm
  · rw [List.get?_set_ne _ _ (fun hc => hnp hc.symm)]

theorem sendQueue_cancel_notfound (s : SendQueue) (m : OutgoingMessage)
    (hq : ∀ q, s.queueAt m.priority = some q → m ∉ q) :
    SendQueue.cancel s m = (false, s) := by
  unfold SendQueue.cancel
  rcases hqa : s.queueAt m.priority with _ | q
  · simp only [hqa]
  · cases q with
    | nil => simp only [hqa]
    | cons x xs =>
      simp only [hqa]
      have hmem := hq (x :: xs) hqa
      have hxm : x ≠ m := fun hc => hmem (by rw [← hc]; exact List.mem_cons_self x xs)
      by_cases hxs : xs = []
      · subst hxs
        rw [if_pos rfl, if_neg hxm]
      · rw [if_neg hxs]
        have hfilter : (x :: xs).filter (fun e => decide (e ≠ m)) = x :: xs :=
          filter_ne_of_not_mem _ _ hmem
        have hany : (x :: xs).any (fun e => decide (e = m)) = false := by
          simp only [List.any_eq_false, decide_eq_true_eq]
          intro a ha
          exact fun hc => hmem (by rw [← hc]; exact ha)
        rw [hfilter, hany]
        have hset := set_queueAt_self s m.priority (x :: xs) hqa
        rw [hset]

/-- C8: `SendQueue.cancel`.  If `m` sits in `queue[m.priority]` (once,
between `pre` and `post`), `cancel` succeeds, removing exactly `m` and
preserving the order of the other queued messages; if `m` is not in
`queue[m.priority]`, `cancel` reports failure — the source throws an
`Error` synchronously — and the whole queue state is unchanged. -/
theorem sendQueue_cancel_spec (s : SendQueue) (m : OutgoingMessage) :
    (∀ pre post, s.queueAt m.priority = some (pre ++ m :: post) → m ∉ pre → m ∉ post →
      SendQueue.cancel s m =
        (true, ⟨s.messageQueues.set m.priority (some (pre ++ post)), s.highestPriority⟩)) ∧
    ((∀ q, s.queueAt m.priority = some q → m ∉ q) →
      SendQueue.cancel s m = (false, s)) :=
  ⟨fun pre post hq hpre hpost => sendQueue_cancel_found s m pre post hq hpre hpost,
   fun hq => sendQueue_cancel_notfound s m hq⟩

/-- C8 witness: cancelling the middle of three messages queued at
priority 2 removes exactly it and preserves the others' order. -/
theorem sendQueue_cancel_spec_witness :
    (SendQueue.queueAt ⟨[none, none,
        some [⟨0, 2, 10, 10, 0⟩, ⟨1, 2, 10, 10, 0⟩, ⟨2, 2, 10, 10, 0⟩], none], 0⟩
        (⟨1, 2, 10, 10, 0⟩ : OutgoingMessage).priority =
      some ([⟨0, 2, 10, 10, 0⟩] ++ ⟨1, 2, 10, 10, 0⟩ :: [⟨2, 2, 10, 10, 0⟩]) ∧
      (⟨1, 2, 10, 10, 0⟩ : OutgoingMessage) ∉ [(⟨0, 2, 10, 10, 0⟩ : OutgoingMessage)] ∧
      (⟨1, 2, 10, 10, 0⟩ : OutgoingMessage) ∉ [(⟨2, 2, 10, 10, 0⟩ : OutgoingMessage)]) ∧
    SendQueue.cancel ⟨[none, none,
        some [⟨0, 2, 10, 10, 0⟩, ⟨1, 2, 10, 10, 0⟩, ⟨2, 2, 10, 10, 0⟩], none], 0⟩
        ⟨1, 2, 10, 10, 0⟩ =
      (true, ⟨(List.set [none, none,
          some [⟨0, 2, 10, 10, 0⟩, ⟨1, 2, 10, 10, 0⟩, ⟨2, 2, 10, 10, 0⟩], none]
          (⟨1, 2, 10, 10, 0⟩ : OutgoingMessage).priority
          (some ([⟨0, 2, 10, 10, 0⟩] ++ [⟨2, 2, 10, 10, 0⟩]))), 0⟩) :=
  ⟨⟨by decide, by decide, by decide⟩,
    (sendQueue_cancel_spec ⟨[none, none,
        some [⟨0, 2, 10, 10, 0⟩, ⟨1, 2, 10, 10, 0⟩, ⟨2, 2, 10, 10, 0⟩], none], 0⟩
        ⟨1, 2, 10, 10, 0⟩).1
      [⟨0, 2, 10, 10, 0⟩] [⟨2, 2, 10, 10, 0⟩] (by decide) (by decide) (by decide)⟩

/-- The unused numbers in the pool together with the in-flight numbers are
always a permutation of `0 .. maxConcurrentMessages - 1`. -/
theorem MessageNumberPool.reachable_perm (maxConcurrentMessages : ℕ)
    (s : MessageNumberPool) (h : MessageNumberPool.Reachable maxConcurrentMessages s) :
    List.Perm (s.pool ++ s.inflight) (List.range maxConcurrentMessages) := by
  induction h with
  | refl => simp [MessageNumberPool.init]
  | tail hr hstep ih =>
    rename_i s1 s2
    cases hstep with
    | send n pool inflight =>
      exact List.perm_middle.trans ih
    | complete n pool inflight hmem =>
      have hperm : (n :: inflight.erase n).Perm inflight := (List.perm_cons_erase hmem).symm
      show ((pool ++ [n]) ++ inflight.erase n).Perm (List.range maxConcurrentMessages)
      rw [List.append_assoc]
      exact (List.Perm.append_left pool hperm).trans ih
    | cancelOutgoing n pool inflight hmem =>
      have hperm : (n :: inflight.erase n).Perm inflight := (List.perm_cons_erase hmem).symm
      show ((pool ++ [n]) ++ inflight.erase n).Perm (List.range maxConcurrentMessages)
      rw [List.append_assoc]
      exact (List.Perm.append_left pool hperm).trans ih

/-- C4: in every reachable state of the outgoing message-number pool, the
in-flight numbers are distinct, each lies in `0 .. maxConcurrentMessages - 1`,
there are at most `maxConcurrentMessages` of them, and pool plus in-flight
numbers partition `{0 .. maxConcurrentMessages - 1}` (as a permutation of
`range maxConcurrentMessages`); numbers leave the pool only through `send`
and return exactly on the isLast frame or a successful cancellation. -/
theorem messageNumberPool_invariant (maxConcurrentMessages : ℕ) (s : MessageNumberPool)
    (h : MessageNumberPool.Reachable maxConcurrentMessages s) :
    s.inflight.Nodup ∧
    (∀ n ∈ s.inflight, n < maxConcurrentMessages) ∧
    s.inflight.length ≤ maxConcurrentMessages ∧
    List.Perm (s.pool ++ s.inflight) (List.range maxConcurrentMessages) := by
  have hperm := MessageNumberPool.reachable_perm maxConcurrentMessages s h
  have hnodup : (s.pool ++ s.inflight).Nodup :=
    hperm.nodup_iff.mpr (List.nodup_range maxConcurrentMessages)
  refine ⟨hnodup.of_append_right, ?_, ?_, hperm⟩
  · intro n hn
    have hmem : n ∈ s.pool ++ s.inflight := List.mem_append_right _ hn
    have hr : n ∈ List.range maxConcurrentMessages := hperm.mem_iff.mp hmem
    exact List.mem_range.mp hr
  · have hlen := hperm.length_eq
    simp only [List.length_append, List.length_range] at hlen
    omega

theorem messageNumberPool_invariant_witness :
    MessageNumberPool.Reachable 2 ⟨[1], [0]⟩ ∧
    (([0] : List ℕ).Nodup ∧
    (∀ n ∈ ([0] : List ℕ), n < 2) ∧
    ([0] : List ℕ).length ≤ 2 ∧
    List.Perm ([1] ++ [0]) (List.range 2)) := by
  have hstep : MessageNumberPool.Step (MessageNumberPool.init 2) ⟨[1], [0]⟩ := by
    have hinit : MessageNumberPool.init 2 = ⟨0 :: [1], []⟩ := by decide
    rw [hinit]
    exact MessageNumberPool.Step.send 0 [1] []
  have hreach : MessageNumberPool.Reachable 2 ⟨[1], [0]⟩ :=
    Relation.ReflTransGen.single hstep
  exact ⟨hreach, messageNumberPool_invariant 2 ⟨[1], [0]⟩ hreach⟩

/-- After any dispatch cycle the NewMessage flag is set (the conn-level call
always runs). -/
theorem dispatchCycle_new_flag (i k : Bool) (s : MessageFlags) :
    (dispatchCycle i k s).2.sentNewMessageCallback = true := by
  rcases s with ⟨a, b⟩
  cases a <;> cases b <;> cases i <;> cases k <;> decide

/-- Once the NewMessage flag is set, no later cycle delivers bit 0 to either
registry. -/
theorem dispatchCycle_new_none (i k : Bool) (s : MessageFlags)
    (h : s.sentNewMessageCallback = true) :
    hasBit (dispatchCycle i k s).1.1 0 = false ∧
    hasBit (dispatchCycle i k s).1.2 0 = false := by
  rcases s with ⟨a, b⟩
  revert h
  cases a <;> cases b <;> cases i <;> cases k <;> decide

/-- If a cycle delivers Complete to either registry, the Complete flag is set
afterwards. -/
theorem dispatchCycle_complete_flag (i k : Bool) (s : MessageFlags)
    (h : hasBit (dispatchCycle i k s).1.1 2 = true ∨
      hasBit (dispatchCycle i k s).1.2 2 = true) :
    (dispatchCycle i k s).2.sentCompleteCallback = true := by
  rcases s with ⟨a, b⟩
  revert h
  cases a <;> cases b <;> cases i <;> cases k <;> decide

/-- Once the Complete flag is set, no later cycle delivers bit 2, and the flag
stays set. -/
theorem dispatchCycle_complete_none (i k : Bool) (s : MessageFlags)
    (h : s.sentCompleteCallback = true) :
    hasBit (dispatchCycle i k s).1.1 2 = false ∧
    hasBit (dispatchCycle i k s).1.2 2 = false ∧
    (dispatchCycle i k s).2.sentCompleteCallback = true := by
  rcases s with ⟨a, b⟩
  revert h
  cases a <;> cases b <;> cases i <;> cases k <;> decide

/-- No single delivered bitmap contains both Complete (bit 2) and Cancelled
(bit 3). -/
theorem dispatchCycle_not_complete_and_cancelled (i k : Bool) (s : MessageFlags) :
    ¬(hasBit (dispatchCycle i k s).1.1 2 = true ∧ hasBit (dispatchCycle i k s).1.1 3 = true) ∧
    ¬(hasBit (dispatchCycle i k s).1.2 2 = true ∧ hasBit (dispatchCycle i k s).1.2 3 = true) := by
  rcases s with ⟨a, b⟩
  cases a <;> cases b <;> cases i <;> cases k <;> decide

/-- A message cancelled on its very first dispatch cycle produces no events
for either registry. -/
theorem dispatchCycle_cancel_fresh (i : Bool) :
    (dispatchCycle i true initFlags).1 = (none, none) := by
  cases i <;> decide

/-- Trace lemma: from a state with the NewMessage flag set, no cycle of the
trace delivers bit 0. -/
theorem runDispatch_new_zero (cycles : List (Bool × Bool)) :
    ∀ s : MessageFlags, s.sentNewMessageCallback = true → ∀ c : Bool,
    countDelivered (runDispatch cycles s).1 c 0 = 0 := by
  induction cycles with
  | nil => intro s _ c; rfl
  | cons cy rest ih =>
    intro s hs c
    have hflag := dispatchCycle_new_flag cy.1 cy.2 s
    have hnone := dispatchCycle_new_none cy.1 cy.2 s hs
    have hrest := ih (dispatchCycle cy.1 cy.2 s).2 hflag c
    simp only [runDispatch, countDelivered]
    rw [hrest]
    cases c
    · simp [hnone.1]
    · simp [hnone.2]

/-- Trace lemma: each registry receives NewMessage (bit 0) at most once. -/
theorem runDispatch_new_le_one (cycles : List (Bool × Bool)) :
    ∀ s : MessageFlags, ∀ c : Bool,
    countDelivered (runDispatch cycles s).1 c 0 ≤ 1 := by
  induction cycles with
  | nil => intro s c; exact Nat.zero_le 1
  | cons cy rest ih =>
    intro s c
    have hflag := dispatchCycle_new_flag cy.1 cy.2 s
    have hzero := runDispatch_new_zero rest (dispatchCycle cy.1 cy.2 s).2 hflag c
    simp only [runDispatch, countDelivered]
    rw [hzero]
    split <;> split <;> omega

/-- Trace lemma: from a state with the Complete flag set, no cycle delivers
bit 2. -/
theorem runDispatch_complete_zero (cycles : List (Bool × Bool)) :
    ∀ s : MessageFlags, s.sentCompleteCallback = true → ∀ c : Bool,
    countDelivered (runDispatch cycles s).1 c 2 = 0 := by
  induction cycles with
  | nil => intro s _ c; rfl
  | cons cy rest ih =>
    intro s hs c
    obtain ⟨h1, h2, hflag⟩ := dispatchCycle_complete_none cy.1 cy.2 s hs
    have hrest := ih (dispatchCycle cy.1 cy.2 s).2 hflag c
    simp only [runDispatch, countDelivered]
    rw [hrest]
    cases c
    · simp [h1]
    · simp [h2]

/-- Trace lemma: each registry receives Complete (bit 2) at most once. -/
theorem runDispatch_complete_le_one (cycles : List (Bool × Bool)) :
    ∀ s : MessageFlags, ∀ c : Bool,
    countDelivered (runDispatch cycles s).1 c 2 ≤ 1 := by
  induction cycles with
  | nil => intro s c; exact Nat.zero_le 1
  | cons cy rest ih =>
    intro s c
    simp only [runDispatch, countDelivered]
    by_cases hbit : hasBit (if c then (dispatchCycle cy.1 cy.2 s).1.2
        else (dispatchCycle cy.1 cy.2 s).1.1) 2 = true
    · have hflag : (dispatchCycle cy.1 cy.2 s).2.sentCompleteCallback = true := by
        apply dispatchCycle_complete_flag cy.1 cy.2 s
        cases c
        · simp only [Bool.false_eq_true, if_false] at hbit
          exact Or.inl hbit
        · simp only [if_true] at hbit
          exact Or.inr hbit
      have hzero := runDispatch_complete_zero rest (dispatchCycle cy.1 cy.2 s).2 hflag c
      rw [hzero, hbit]
      simp
    · have hle := ih (dispatchCycle cy.1 cy.2 s).2 c
      simp only [Bool.not_eq_true] at hbit
      rw [hbit]
      simpa using hle

/-- C5: for a fresh incoming message and any sequence of dispatch cycles in
which only the final cycle may have the message cancelled (the dispatch loop
dispatches a cancellation at most once and clears the slot afterwards), each
of NewMessage and Complete is delivered at most once to the message-level
registry and at most once to the connection-level registry; no single
delivered bitmap contains both Complete and Cancelled; and if the message is
cancelled on its first dispatch — before any NewMessage was delivered — then
neither registry receives any events at all. -/
theorem message_event_delivery (cycles : List (Bool × Bool))
    (hlast : ∀ p ∈ cycles.dropLast, p.2 = false) :
    (∀ c : Bool, countDelivered (runDispatch cycles initFlags).1 c 0 ≤ 1) ∧
    (∀ c : Bool, countDelivered (runDispatch cycles initFlags).1 c 2 ≤ 1) ∧
    (∀ o ∈ (runDispatch cycles initFlags).1,
      ¬(hasBit o.1 2 = true ∧ hasBit o.1 3 = true) ∧
      ¬(hasBit o.2 2 = true ∧ hasBit o.2 3 = true)) ∧
    ((cycles.getD 0 (false, false)).2 = true → cycles ≠ [] →
      ∀ o ∈ (runDispatch cycles initFlags).1, o.1 = none ∧ o.2 = none) := by
  refine ⟨fun c => runDispatch_new_le_one cycles initFlags c,
    fun c => runDispatch_complete_le_one cycles initFlags c, ?_, ?_⟩
  · suffices hgen : ∀ (cs : List (Bool × Bool)) (s : MessageFlags),
        ∀ o ∈ (runDispatch cs s).1,
        ¬(hasBit o.1 2 = true ∧ hasBit o.1 3 = true) ∧
        ¬(hasBit o.2 2 = true ∧ hasBit o.2 3 = true) by
      exact hgen cycles initFlags
    intro cs
    induction cs with
    | nil => intro s o ho; simp [runDispatch] at ho
    | cons cy rest ih =>
      intro s o ho
      simp only [runDispatch, List.mem_cons] at ho
      rcases ho with ho | ho
      · subst ho
        exact dispatchCycle_not_complete_and_cancelled cy.1 cy.2 s
      · exact ih (dispatchCycle cy.1 cy.2 s).2 o ho
  · intro hhead hne
    cases cycles with
    | nil => exact absurd rfl hne
    | cons cy rest =>
      cases rest with
      | cons cy2 rest2 =>
        have hfalse := hlast cy (by
          rw [List.dropLast_cons₂]
          exact List.mem_cons_self cy _)
        simp only [List.getD_cons_zero] at hhead
        rw [hfalse] at hhead
        cases hhead
      | nil =>
        rcases cy with ⟨c1, c2⟩
        simp only [List.getD_cons_zero] at hhead
        cases c2 with
        | false => cases hhead
        | true =>
          intro o ho
          simp only [runDispatch, List.mem_cons, List.not_mem_nil, or_false] at ho
          subst ho
          have hfresh := dispatchCycle_cancel_fresh c1
          exact ⟨by rw [hfresh], by rw [hfresh]⟩

theorem message_event_delivery_witness :
    (∀ p ∈ ([(true, false), (true, true)] : List (Bool × Bool)).dropLast, p.2 = false) ∧
    ((∀ c : Bool,
      countDelivered (runDispatch [(true, false), (true, true)] initFlags).1 c 0 ≤ 1) ∧
    (∀ c : Bool,
      countDelivered (runDispatch [(true, false), (true, true)] initFlags).1 c 2 ≤ 1) ∧
    (∀ o ∈ (runDispatch [(true, false), (true, true)] initFlags).1,
      ¬(hasBit o.1 2 = true ∧ hasBit o.1 3 = true) ∧
      ¬(hasBit o.2 2 = true ∧ hasBit o.2 3 = true)) ∧
    ((([(true, false), (true, true)] : List (Bool × Bool)).getD 0 (false, false)).2 = true →
      ([(true, false), (true, true)] : List (Bool × Bool)) ≠ [] →
      ∀ o ∈ (runDispatch [(true, false), (true, true)] initFlags).1,
        o.1 = none ∧ o.2 = none)) :=
  ⟨by decide, message_event_delivery [(true, false), (true, true)] (by decide)⟩

/-- Reading an untouched slot after setting a different one. -/
theorem getD_set_ne_opt (qs : List (Option IncomingMessage)) (q j : ℕ) (a)
    (hne : j ≠ q) : (qs.set q a).getD j none = qs.getD j none := by
  rw [List.getD_eq_getD_get?, List.getD_eq_getD_get?,
    List.get?_set_ne _ _ (fun h => hne h.symm)]

/-- The cancellation loop over distinct indices succeeds iff every selected
index denotes an occupied slot of the starting state. -/
theorem cancelAux_ok_iff (messageNumberBitmask : ℕ) :
    ∀ (idx : List ℕ) (st : List (Option IncomingMessage) × List IncomingMessage),
    idx.Nodup →
    (exceptOk (cancelReceivedMessagesAux messageNumberBitmask idx st) = true ↔
      ∀ n ∈ idx, messageNumberBitmask.testBit n → (st.1.getD n none).isSome = true) := by
  intro idx
  induction idx with
  | nil =>
    intro st _
    simp [cancelReceivedMessagesAux, exceptOk]
  | cons n rest ih =>
    intro st hnd
    have hnotin : n ∉ rest := (List.nodup_cons.mp hnd).1
    have hndrest : rest.Nodup := (List.nodup_cons.mp hnd).2
    simp only [cancelReceivedMessagesAux]
    by_cases hbit : messageNumberBitmask.testBit n
    · simp only [hbit, if_true]
      unfold cancelReceivedMessage
      rcases hslot : st.1.getD n none with _ | msg
      · simp only [exceptOk]
        constructor
        · intro h
          cases h
        · intro h
          have := h n (List.mem_cons_self n rest) hbit
          rw [hslot] at this
          cases this
      · simp only
        rw [ih _ hndrest]
        constructor
        · intro h m hm hb
          rcases List.mem_cons.mp hm with hm1 | hm2
          · subst hm1
            rw [hslot]
            rfl
          · have := h m hm2 hb
            rwa [getD_set_ne_opt _ _ _ _
              (fun hc => hnotin (by rw [← hc]; exact hm2))] at this
        · intro h m hm hb
          rw [getD_set_ne_opt _ _ _ _ (fun hc => hnotin (by rw [← hc]; exact hm))]
          exact h m (List.mem_cons_of_mem n hm) hb
    · rw [Bool.not_eq_true] at hbit
      simp only [hbit, Bool.false_eq_true, if_false]
      rw [ih _ hndrest]
      constructor
      · intro h m hm hb
        rcases List.mem_cons.mp hm with hm1 | hm2
        · subst hm1
          rw [hbit] at hb
          cases hb
        · exact h m hm2 hb
      · intro h m hm hb
        exact h m (List.mem_cons_of_mem n hm) hb

/-- C10: on an open connection, `cancelReceivedMessages(bitmask)` succeeds
iff every set bit of the bitmask (within slot range) refers to an occupied
incoming slot; if any set bit refers to an empty slot, the raised
`Invalid message number` error escapes the receive loop and the exception
wrapper force-closes the connection with reason `Error` (the JS error's
`name`); if all set bits refer to occupied slots, the connection stays
open. -/
theorem cancelFrame_spec (c : ConnState) (messageNumberBitmask : ℕ)
    (hopen : c.closeReason = none) :
    (exceptOk (cancelReceivedMessages messageNumberBitmask c.receivedMessages
        c.dispatchQueue) = true ↔
      ∀ n, n < c.receivedMessages.length → messageNumberBitmask.testBit n →
        ((c.receivedMessages.getD n none).isSome = true)) ∧
    ((∃ n, n < c.receivedMessages.length ∧ messageNumberBitmask.testBit n ∧
        c.receivedMessages.getD n none = none) →
      (processCancelFrame c messageNumberBitmask).closeReason = some "Error") ∧
    ((∀ n, n < c.receivedMessages.length → messageNumberBitmask.testBit n →
        ((c.receivedMessages.getD n none).isSome = true)) →
      (processCancelFrame c messageNumberBitmask).closeReason = none) := by
  have hiff := cancelAux_ok_iff messageNumberBitmask
    (List.range c.receivedMessages.length) (c.receivedMessages, c.dispatchQueue)
    (List.nodup_range _)
  have hiff2 : exceptOk (cancelReceivedMessages messageNumberBitmask c.receivedMessages
      c.dispatchQueue) = true ↔
      ∀ n, n < c.receivedMessages.length → messageNumberBitmask.testBit n →
        ((c.receivedMessages.getD n none).isSome = true) := by
    rw [cancelReceivedMessages, hiff]
    constructor
    · intro h n hn hb
      exact h n (List.mem_range.mpr hn) hb
    · intro h n hn hb
      exact h n (List.mem_range.mp hn) hb
  refine ⟨hiff2, ?_, ?_⟩
  · rintro ⟨n, hn, hb, hnone⟩
    have hnotok : exceptOk (cancelReceivedMessages messageNumberBitmask c.receivedMessages
        c.dispatchQueue) = false := by
      rcases hok : exceptOk (cancelReceivedMessages messageNumberBitmask c.receivedMessages
        c.dispatchQueue) with _ | _
      · rfl
      · have := hiff2.mp hok n hn hb
        rw [hnone] at this
        cases this
    unfold processCancelFrame
    rcases hres : cancelReceivedMessages messageNumberBitmask c.receivedMessages
        c.dispatchQueue with e | st
    · simp only [ConnState.forceClose, hopen, Option.isNone_none, if_true]
    · rw [hres] at hnotok
      simp [exceptOk] at hnotok
  · intro h
    have hok := hiff2.mpr h
    unfold processCancelFrame
    rcases hres : cancelReceivedMessages messageNumberBitmask c.receivedMessages
        c.dispatchQueue with e | st
    · rw [hres] at hok
      simp [exceptOk] at hok
    · exact hopen

theorem cancelFrame_spec_witness :
    ((⟨[some ⟨false⟩, none], [], none⟩ : ConnState).closeReason = none) ∧
    ((exceptOk (cancelReceivedMessages 2
        (⟨[some ⟨false⟩, none], [], none⟩ : ConnState).receivedMessages
        (⟨[some ⟨false⟩, none], [], none⟩ : ConnState).dispatchQueue) = true ↔
      ∀ n, n < (⟨[some ⟨false⟩, none], [], none⟩ : ConnState).receivedMessages.length →
        (2 : ℕ).testBit n →
        (((⟨[some ⟨false⟩, none], [], none⟩ : ConnState).receivedMessages.getD n
          none).isSome = true)) ∧
    ((∃ n, n < (⟨[some ⟨false⟩, none], [], none⟩ : ConnState).receivedMessages.length ∧
        (2 : ℕ).testBit n ∧
        (⟨[some ⟨false⟩, none], [], none⟩ : ConnState).receivedMessages.getD n none = none) →
      (processCancelFrame ⟨[some ⟨false⟩, none], [], none⟩ 2).closeReason = some "Error") ∧
    ((∀ n, n < (⟨[some ⟨false⟩, none], [], none⟩ : ConnState).receivedMessages.length →
        (2 : ℕ).testBit n →
        (((⟨[some ⟨false⟩, none], [], none⟩ : ConnState).receivedMessages.getD n
          none).isSome = true)) →
      (processCancelFrame ⟨[some ⟨false⟩, none], [], none⟩ 2).closeReason = none)) :=
  ⟨rfl, cancelFrame_spec ⟨[some ⟨false⟩, none], [], none⟩ 2 rfl⟩

/-- Reading a byte past a known block. -/
theorem byteAt_append_add (pre xs : List ℕ) (i : ℕ) :
    byteAt (pre ++ xs) (pre.length + i) = byteAt xs i := by
  unfold byteAt
  rw [List.getD_append_right _ _ _ _ (Nat.le_add_right _ _), Nat.add_sub_cancel_left]

theorem readUInt16_append (pre xs : List ℕ) (i : ℕ) :
    BinaryConverter.readUInt16 (pre ++ xs) (pre.length + i) =
      BinaryConverter.readUInt16 xs i := by
  unfold BinaryConverter.readUInt16
  rw [byteAt_append_add, Nat.add_assoc pre.length i 1, byteAt_append_add]

theorem readWord32_append (pre xs : List ℕ) (i : ℕ) :
    readWord32 (pre ++ xs) (pre.length + i) = readWord32 xs i := by
  unfold readWord32
  rw [byteAt_append_add, Nat.add_assoc pre.length i 1, byteAt_append_add,
    Nat.add_assoc pre.length i 2, byteAt_append_add,
    Nat.add_assoc pre.length i 3, byteAt_append_add]

theorem readInt32_append (pre xs : List ℕ) (i : ℕ) :
    BinaryConverter.readInt32 (pre ++ xs) (pre.length + i) =
      BinaryConverter.readInt32 xs i := by
  unfold BinaryConverter.readInt32
  rw [readWord32_append]

/-- A `u16` below `2 ^ 16` survives the byte round trip. -/
theorem readUInt16_write (v : ℕ) (h : v < 2 ^ 16) (rest : List ℕ) :
    BinaryConverter.readUInt16 (BinaryConverter.writeUInt16 v ++ rest) 0 = v := by
  have h0 : byteAt (BinaryConverter.writeUInt16 v ++ rest) 0 = v / 2 ^ 8 % 2 ^ 8 := rfl
  have h1 : byteAt (BinaryConverter.writeUInt16 v ++ rest) (0 + 1) = v % 2 ^ 8 := rfl
  unfold BinaryConverter.readUInt16
  rw [h0, h1]
  omega

/-- An unsigned 32-bit word below `2 ^ 32` survives the byte round trip. -/
theorem readWord32_write (u : ℕ) (h : u < 2 ^ 32) (rest : List ℕ) :
    readWord32 (writeUInt32bytes u ++ rest) 0 = u := by
  have h0 : byteAt (writeUInt32bytes u ++ rest) 0 = u / 2 ^ 24 % 2 ^ 8 := rfl
  have h1 : byteAt (writeUInt32bytes u ++ rest) (0 + 1) = u / 2 ^ 16 % 2 ^ 8 := rfl
  have h2 : byteAt (writeUInt32bytes u ++ rest) (0 + 2) = u / 2 ^ 8 % 2 ^ 8 := rfl
  have h3 : byteAt (writeUInt32bytes u ++ rest) (0 + 3) = u % 2 ^ 8 := rfl
  unfold readWord32
  rw [h0, h1, h2, h3]
  omega

/-- A signed 32-bit value survives the byte round trip. -/
theorem readInt32_write (v : ℤ) (h1 : -2 ^ 31 ≤ v) (h2 : v < 2 ^ 31) (rest : List ℕ) :
    BinaryConverter.readInt32 (BinaryConverter.writeInt32 v ++ rest) 0 = v := by
  unfold BinaryConverter.readInt32 BinaryConverter.writeInt32
  have hu : (v % 2 ^ 32).toNat < 2 ^ 32 := by omega
  rw [readWord32_write _ hu rest]
  split <;> omega

theorem readUInt16_at (pre rest : List ℕ) (v : ℕ) (h : v < 2 ^ 16) :
    BinaryConverter.readUInt16 (pre ++ (BinaryConverter.writeUInt16 v ++ rest)) pre.length = v := by
  have hs := readUInt16_append pre (BinaryConverter.writeUInt16 v ++ rest) 0
  rw [Nat.add_zero] at hs
  rw [hs]
  exact readUInt16_write v h rest

theorem readWord32_at (pre rest : List ℕ) (u : ℕ) (h : u < 2 ^ 32) :
    readWord32 (pre ++ (writeUInt32bytes u ++ rest)) pre.length = u := by
  have hs := readWord32_append pre (writeUInt32bytes u ++ rest) 0
  rw [Nat.add_zero] at hs
  rw [hs]
  exact readWord32_write u h rest

theorem readInt32_at (pre rest : List ℕ) (v : ℤ) (h1 : -2 ^ 31 ≤ v) (h2 : v < 2 ^ 31) :
    BinaryConverter.readInt32 (pre ++ (BinaryConverter.writeInt32 v ++ rest)) pre.length = v := by
  have hs := readInt32_append pre (BinaryConverter.writeInt32 v ++ rest) 0
  rw [Nat.add_zero] at hs
  rw [hs]
  exact readInt32_write v h1 h2 rest

theorem packOffsetWord_lt (offset messageNumber : ℕ) (f l : Bool) :
    packOffsetWord offset messageNumber f l < 2 ^ 32 := by
  unfold packOffsetWord
  split <;> split <;> omega

theorem packLengthWord_lt (length headerLength : ℕ) :
    packLengthWord length headerLength < 2 ^ 32 := by
  unfold packLengthWord
  split <;> omega

theorem packOffsetWord_offset (offset messageNumber : ℕ) (f l : Bool)
    (h : offset < 2 ^ 26) :
    packOffsetWord offset messageNumber f l % 2 ^ 26 = offset := by
  unfold packOffsetWord
  split <;> split <;> omega

theorem packOffsetWord_msg (offset messageNumber : ℕ) (f l : Bool)
    (h : messageNumber < 2 ^ 4) :
    packOffsetWord offset messageNumber f l / 2 ^ 28 % 2 ^ 4 = messageNumber := by
  unfold packOffsetWord
  split <;> split <;> omega

theorem packOffsetWord_isFirst (offset messageNumber : ℕ) (f l : Bool) :
    (packOffsetWord offset messageNumber f l / 2 ^ 27 % 2 == 1) = f := by
  unfold packOffsetWord
  cases f <;> cases l <;> simp <;> omega

theorem packOffsetWord_isLast (offset messageNumber : ℕ) (f l : Bool) :
    (packOffsetWord offset messageNumber f l / 2 ^ 26 % 2 == 1) = l := by
  unfold packOffsetWord
  cases f <;> cases l <;> simp <;> omega

theorem packLengthWord_len (length headerLength : ℕ) (h : length < 2 ^ 26) :
    packLengthWord length headerLength % 2 ^ 26 = length := by
  unfold packLengthWord
  split <;> omega

theorem packLengthWord_hl (length headerLength : ℕ) (h : length < 2 ^ 26)
    (h2 : headerLength ≤ 63) :
    packLengthWord length headerLength / 2 ^ 26 % 2 ^ 6 = headerLength := by
  unfold packLengthWord
  split <;> omega

/-- A well-formed descriptor survives `write` followed by `read` at any
position, and the parse advances by its chunk length. -/
theorem dataFrameControl_read_write (pre rest : List ℕ) (d : DataFrameControl)
    (hm : d.messageNumber < 2 ^ 4) (ho : d.offset < 2 ^ 26) (hl : d.length < 2 ^ 26)
    (hh : d.header.length ≤ 63) :
    DataFrameControl.read (pre ++ (DataFrameControl.write d ++ rest)) pre.length =
      (d, d.header.length + 8) := by
  obtain ⟨off, len, msg, fst, lst, hdr⟩ := d
  dsimp only at hm ho hl hh
  dsimp only [DataFrameControl.write]
  rw [List.append_assoc (writeUInt32bytes (packOffsetWord off msg fst lst))
    (writeUInt32bytes (packLengthWord len hdr.length)) hdr,
    List.append_assoc (writeUInt32bytes (packOffsetWord off msg fst lst))
    (writeUInt32bytes (packLengthWord len hdr.length) ++ hdr) rest,
    List.append_assoc (writeUInt32bytes (packLengthWord len hdr.length)) hdr rest]
  have h0 : readWord32 (pre ++ (writeUInt32bytes (packOffsetWord off msg fst lst) ++
      (writeUInt32bytes (packLengthWord len hdr.length) ++ (hdr ++ rest)))) pre.length =
      packOffsetWord off msg fst lst :=
    readWord32_at pre _ _ (packOffsetWord_lt off msg fst lst)
  have h4 : readWord32 (pre ++ (writeUInt32bytes (packOffsetWord off msg fst lst) ++
      (writeUInt32bytes (packLengthWord len hdr.length) ++ (hdr ++ rest))))
      (pre.length + 4) = packLengthWord len hdr.length := by
    rw [← List.append_assoc pre (writeUInt32bytes (packOffsetWord off msg fst lst))
      (writeUInt32bytes (packLengthWord len hdr.length) ++ (hdr ++ rest))]
    have hlen : pre.length + 4 =
        (pre ++ writeUInt32bytes (packOffsetWord off msg fst lst)).length := by
      simp [writeUInt32bytes]
    rw [hlen]
    exact readWord32_at _ _ _ (packLengthWord_lt len hdr.length)
  have hdrop : (pre ++ (writeUInt32bytes (packOffsetWord off msg fst lst) ++
      (writeUInt32bytes (packLengthWord len hdr.length) ++ (hdr ++ rest)))).drop
      (pre.length + 8) = hdr ++ rest := by
    rw [← List.append_assoc pre (writeUInt32bytes (packOffsetWord off msg fst lst))
      (writeUInt32bytes (packLengthWord len hdr.length) ++ (hdr ++ rest)),
      ← List.append_assoc (pre ++ writeUInt32bytes (packOffsetWord off msg fst lst))
      (writeUInt32bytes (packLengthWord len hdr.length)) (hdr ++ rest)]
    have hlen8 : pre.length + 8 =
        ((pre ++ writeUInt32bytes (packOffsetWord off msg fst lst)) ++
          writeUInt32bytes (packLengthWord len hdr.length)).length := by
      simp [writeUInt32bytes]
    rw [hlen8]
    exact List.drop_left _ _
  simp only [DataFrameControl.read]
  rw [h0, h4, hdrop, packOffsetWord_offset off msg fst lst ho,
    packOffsetWord_msg off msg fst lst hm, packOffsetWord_isFirst off msg fst lst,
    packOffsetWord_isLast off msg fst lst, packLengthWord_len len hdr.length hl,
    packLengthWord_hl len hdr.length hl hh]
  rcases Nat.eq_zero_or_pos hdr.length with hz | hp
  · rw [if_neg (by omega)]
    rw [List.length_eq_zero.mp hz]
  · rw [if_pos hp, List.take_left]

theorem dataFrameControl_write_length (d : DataFrameControl) :
    (DataFrameControl.write d).length = 8 + d.header.length := by
  simp only [DataFrameControl.write, List.length_append, writeUInt32bytes,
    List.length_cons, List.length_nil]

/-- The descriptor loop of `read` recovers a sequence of well-formed
descriptors laid out by the loop of `write`. -/
theorem readDataFrames_write (ds : List DataFrameControl) :
    ∀ pre : List ℕ, (∀ d ∈ ds, DataFrameControl.WF d) →
    readDataFrames ds.length (pre ++ ds.flatMap DataFrameControl.write) pre.length = ds := by
  induction ds with
  | nil => intro pre h; rfl
  | cons d ds ih =>
    intro pre h
    obtain ⟨hm, ho, hl, hh, _⟩ := h d (List.mem_cons_self d ds)
    rw [List.flatMap_cons, ← List.append_assoc pre (DataFrameControl.write d)
      (ds.flatMap DataFrameControl.write),
      List.append_assoc pre (DataFrameControl.write d) (ds.flatMap DataFrameControl.write)]
    show readDataFrames (ds.length + 1) _ _ = _
    simp only [readDataFrames]
    rw [dataFrameControl_read_write pre (ds.flatMap DataFrameControl.write) d hm ho hl hh]
    have hlen : pre.length + (d.header.length + 8) =
        (pre ++ DataFrameControl.write d).length := by
      rw [List.length_append, dataFrameControl_write_length]
      omega
    rw [hlen, ← List.append_assoc pre (DataFrameControl.write d)
      (ds.flatMap DataFrameControl.write)]
    exact congrArg (d :: ·)
      (ih (pre ++ DataFrameControl.write d) (fun x hx => h x (List.mem_cons_of_mem d hx)))

theorem readUInt16_at2 (pre rest : List ℕ) (v n : ℕ) (h : v < 2 ^ 16)
    (hn : pre.length = n) :
    BinaryConverter.readUInt16 (pre ++ (BinaryConverter.writeUInt16 v ++ rest)) n = v := by
  rw [← hn]
  exact readUInt16_at pre rest v h

theorem readInt32_at2 (pre rest : List ℕ) (v : ℤ) (n : ℕ) (h1 : -2 ^ 31 ≤ v)
    (h2 : v < 2 ^ 31) (hn : pre.length = n) :
    BinaryConverter.readInt32 (pre ++ (BinaryConverter.writeInt32 v ++ rest)) n = v := by
  rw [← hn]
  exact readInt32_at pre rest v h1 h2

theorem readDataFrames_write2 (ds : List DataFrameControl) (pre : List ℕ) (n : ℕ)
    (h : ∀ d ∈ ds, DataFrameControl.WF d) (hn : pre.length = n) :
    readDataFrames ds.length (pre ++ ds.flatMap DataFrameControl.write) n = ds := by
  rw [← hn]
  exact readDataFrames_write ds pre h

/-- Round trip of a capabilities frame (opcode 0x00). -/
theorem controlFrame_write_caps_read (rtt : ℕ) (thr : ℤ) (M m : ℕ) (K : ℤ)
    (hrtt : rtt < 2 ^ 16) (ht1 : -2 ^ 31 ≤ thr) (ht2 : thr < 2 ^ 31)
    (h1 : M < 2 ^ 16) (h2 : m < 2 ^ 16) (h3 : -2 ^ 31 ≤ K) (h4 : K < 2 ^ 31) :
    ControlFrame.read (ControlFrame.write ⟨0x00, rtt, thr, FrameData.caps ⟨M, m, K⟩⟩) =
      ⟨0x00, rtt, thr, FrameData.caps ⟨M, m, K⟩⟩ := by
  have hf2 : ControlFrame.write ⟨0x00, rtt, thr, FrameData.caps ⟨M, m, K⟩⟩ =
      [0x00 % 2 ^ 8, 0] ++ (BinaryConverter.writeUInt16 rtt ++
        (BinaryConverter.writeInt32 thr ++ (BinaryConverter.writeUInt16 M ++
          (BinaryConverter.writeUInt16 m ++ BinaryConverter.writeInt32 K)))) := by
    simp [ControlFrame.write, ControlFrame.writeData, TransportCapabilities.write,
      List.append_assoc]
  have hf4 : ControlFrame.write ⟨0x00, rtt, thr, FrameData.caps ⟨M, m, K⟩⟩ =
      ([0x00 % 2 ^ 8, 0] ++ BinaryConverter.writeUInt16 rtt) ++
        (BinaryConverter.writeInt32 thr ++ (BinaryConverter.writeUInt16 M ++
          (BinaryConverter.writeUInt16 m ++ BinaryConverter.writeInt32 K))) := by
    simp [ControlFrame.write, ControlFrame.writeData, TransportCapabilities.write,
      List.append_assoc]
  have hf8 : ControlFrame.write ⟨0x00, rtt, thr, FrameData.caps ⟨M, m, K⟩⟩ =
      ([0x00 % 2 ^ 8, 0] ++ BinaryConverter.writeUInt16 rtt ++
        BinaryConverter.writeInt32 thr) ++ (BinaryConverter.writeUInt16 M ++
          (BinaryConverter.writeUInt16 m ++ BinaryConverter.writeInt32 K)) := by
    simp [ControlFrame.write, ControlFrame.writeData, TransportCapabilities.write,
      List.append_assoc]
  have hf10 : ControlFrame.write ⟨0x00, rtt, thr, FrameData.caps ⟨M, m, K⟩⟩ =
      ([0x00 % 2 ^ 8, 0] ++ BinaryConverter.writeUInt16 rtt ++
        BinaryConverter.writeInt32 thr ++ BinaryConverter.writeUInt16 M) ++
        (BinaryConverter.writeUInt16 m ++ BinaryConverter.writeInt32 K) := by
    simp [ControlFrame.write, ControlFrame.writeData, TransportCapabilities.write,
      List.append_assoc]
  have hf12 : ControlFrame.write ⟨0x00, rtt, thr, FrameData.caps ⟨M, m, K⟩⟩ =
      ([0x00 % 2 ^ 8, 0] ++ BinaryConverter.writeUInt16 rtt ++
        BinaryConverter.writeInt32 thr ++ BinaryConverter.writeUInt16 M ++
        BinaryConverter.writeUInt16 m) ++ (BinaryConverter.writeInt32 K ++ []) := by
    simp [ControlFrame.write, ControlFrame.writeData, TransportCapabilities.write,
      List.append_assoc]
  have hop : byteAt (ControlFrame.write ⟨0x00, rtt, thr, FrameData.caps ⟨M, m, K⟩⟩) 0 =
      0x00 := by
    rw [hf2]
    rfl
  simp only [ControlFrame.read, ControlFrame.mk.injEq]
  refine ⟨hop, ?_, ?_, ?_⟩
  · rw [hf2]
    exact readUInt16_at2 [0x00 % 2 ^ 8, 0] _ rtt 2 hrtt rfl
  · rw [hf4]
    exact readInt32_at2 ([0x00 % 2 ^ 8, 0] ++ BinaryConverter.writeUInt16 rtt) _ thr 4
      ht1 ht2 (by simp [BinaryConverter.writeUInt16])
  · rw [hop]
    unfold ControlFrame.readData
    rw [if_pos rfl]
    refine congrArg FrameData.caps ?_
    simp only [TransportCapabilities.read, TransportCapabilities.mk.injEq]
    refine ⟨?_, ?_, ?_⟩
    · rw [hf8]
      exact readUInt16_at2 ([0x00 % 2 ^ 8, 0] ++ BinaryConverter.writeUInt16 rtt ++
        BinaryConverter.writeInt32 thr) _ M 8 h1
        (by simp [BinaryConverter.writeUInt16, BinaryConverter.writeInt32, writeUInt32bytes])
    · rw [hf10]
      exact readUInt16_at2 ([0x00 % 2 ^ 8, 0] ++ BinaryConverter.writeUInt16 rtt ++
        BinaryConverter.writeInt32 thr ++ BinaryConverter.writeUInt16 M) _ m (8 + 2) h2
        (by simp [BinaryConverter.writeUInt16, BinaryConverter.writeInt32, writeUInt32bytes])
    · rw [hf12]
      exact readInt32_at2 ([0x00 % 2 ^ 8, 0] ++ BinaryConverter.writeUInt16 rtt ++
        BinaryConverter.writeInt32 thr ++ BinaryConverter.writeUInt16 M ++
        BinaryConverter.writeUInt16 m) _ K (8 + 4) h3 h4
        (by simp [BinaryConverter.writeUInt16, BinaryConverter.writeInt32, writeUInt32bytes])

/-- Round trip of a data-group frame (opcode = number of descriptors,
1-15). -/
theorem controlFrame_write_frames_read (rtt : ℕ) (thr : ℤ) (ds : List DataFrameControl)
    (hrtt : rtt < 2 ^ 16) (ht1 : -2 ^ 31 ≤ thr) (ht2 : thr < 2 ^ 31)
    (h1 : 0x01 ≤ ds.length) (h2 : ds.length ≤ 0x0f)
    (hwf : ∀ d ∈ ds, DataFrameControl.WF d) :
    ControlFrame.read (ControlFrame.write ⟨ds.length, rtt, thr, FrameData.dataFrames ds⟩) =
      ⟨ds.length, rtt, thr, FrameData.dataFrames ds⟩ := by
  have hwd : ControlFrame.writeData ⟨ds.length, rtt, thr, FrameData.dataFrames ds⟩ =
      ds.flatMap DataFrameControl.write := by
    unfold ControlFrame.writeData
    dsimp only
    rw [if_neg (by omega : ¬ds.length = 0x00), if_pos ⟨h1, h2⟩]
  have hf8 : ControlFrame.write ⟨ds.length, rtt, thr, FrameData.dataFrames ds⟩ =
      ([ds.length % 2 ^ 8, 0] ++ BinaryConverter.writeUInt16 rtt ++
        BinaryConverter.writeInt32 thr) ++ ds.flatMap DataFrameControl.write := by
    unfold ControlFrame.write
    dsimp only
    rw [hwd]
  have hf2 : ControlFrame.write ⟨ds.length, rtt, thr, FrameData.dataFrames ds⟩ =
      [ds.length % 2 ^ 8, 0] ++ (BinaryConverter.writeUInt16 rtt ++
        (BinaryConverter.writeInt32 thr ++ ds.flatMap DataFrameControl.write)) := by
    rw [hf8, List.append_assoc, List.append_assoc]
  have hf4 : ControlFrame.write ⟨ds.length, rtt, thr, FrameData.dataFrames ds⟩ =
      ([ds.length % 2 ^ 8, 0] ++ BinaryConverter.writeUInt16 rtt) ++
        (BinaryConverter.writeInt32 thr ++ ds.flatMap DataFrameControl.write) := by
    rw [hf8, List.append_assoc ([ds.length % 2 ^ 8, 0] ++ BinaryConverter.writeUInt16 rtt)
      (BinaryConverter.writeInt32 thr) (ds.flatMap DataFrameControl.write)]
  have hop : byteAt (ControlFrame.write ⟨ds.length, rtt, thr, FrameData.dataFrames ds⟩) 0 =
      ds.length := by
    rw [hf2]
    show ds.length % 2 ^ 8 = ds.length
    omega
  simp only [ControlFrame.read, ControlFrame.mk.injEq]
  refine ⟨hop, ?_, ?_, ?_⟩
  · rw [hf2]
    exact readUInt16_at2 [ds.length % 2 ^ 8, 0] _ rtt 2 hrtt rfl
  · rw [hf4]
    exact readInt32_at2 ([ds.length % 2 ^ 8, 0] ++ BinaryConverter.writeUInt16 rtt) _ thr 4
      ht1 ht2 (by simp [BinaryConverter.writeUInt16])
  · rw [hop]
    unfold ControlFrame.readData
    rw [if_neg (by omega : ¬ds.length = 0x00), if_pos ⟨h1, h2⟩]
    refine congrArg FrameData.dataFrames ?_
    rw [hf8]
    exact readDataFrames_write2 ds ([ds.length % 2 ^ 8, 0] ++
      BinaryConverter.writeUInt16 rtt ++ BinaryConverter.writeInt32 thr) 8 hwf
      (by simp [BinaryConverter.writeUInt16, BinaryConverter.writeInt32, writeUInt32bytes])

/-- Round trip of a ping or pong frame (opcode 0x10 / 0x11, no data). -/
theorem controlFrame_write_pingpong_read (op rtt : ℕ) (thr : ℤ)
    (hop : op = 0x10 ∨ op = 0x11) (hrtt : rtt < 2 ^ 16)
    (ht1 : -2 ^ 31 ≤ thr) (ht2 : thr < 2 ^ 31) :
    ControlFrame.read (ControlFrame.write ⟨op, rtt, thr, FrameData.none⟩) =
      ⟨op, rtt, thr, FrameData.none⟩ := by
  have hwd : ControlFrame.writeData ⟨op, rtt, thr, FrameData.none⟩ = [] := by
    unfold ControlFrame.writeData
    dsimp only
    rcases hop with h | h <;> subst h <;> rfl
  have hf2 : ControlFrame.write ⟨op, rtt, thr, FrameData.none⟩ =
      [op % 2 ^ 8, 0] ++ (BinaryConverter.writeUInt16 rtt ++
        (BinaryConverter.writeInt32 thr ++ [])) := by
    unfold ControlFrame.write
    dsimp only
    rw [hwd, List.append_assoc, List.append_assoc]
  have hf4 : ControlFrame.write ⟨op, rtt, thr, FrameData.none⟩ =
      ([op % 2 ^ 8, 0] ++ BinaryConverter.writeUInt16 rtt) ++
        (BinaryConverter.writeInt32 thr ++ []) := by
    unfold ControlFrame.write
    dsimp only
    rw [hwd, List.append_assoc ([op % 2 ^ 8, 0] ++ BinaryConverter.writeUInt16 rtt)
      (BinaryConverter.writeInt32 thr) []]
  have hbyte : byteAt (ControlFrame.write ⟨op, rtt, thr, FrameData.none⟩) 0 = op := by
    rw [hf2]
    show op % 2 ^ 8 = op
    omega
  simp only [ControlFrame.read, ControlFrame.mk.injEq]
  refine ⟨hbyte, ?_, ?_, ?_⟩
  · rw [hf2]
    exact readUInt16_at2 [op % 2 ^ 8, 0] _ rtt 2 hrtt rfl
  · rw [hf4]
    exact readInt32_at2 ([op % 2 ^ 8, 0] ++ BinaryConverter.writeUInt16 rtt) _ thr 4
      ht1 ht2 (by simp [BinaryConverter.writeUInt16])
  · rw [hbyte]
    unfold ControlFrame.readData
    rcases hop with h | h <;> subst h <;>
      rw [if_neg (by omega), if_neg (by omega), if_neg (by omega)]

/-- Round trip of a cancel frame (opcode 0x12). -/
theorem controlFrame_write_cancel_read (rtt : ℕ) (thr : ℤ) (m : ℕ)
    (hrtt : rtt < 2 ^ 16) (ht1 : -2 ^ 31 ≤ thr) (ht2 : thr < 2 ^ 31)
    (hm : m < 2 ^ 16) :
    ControlFrame.read (ControlFrame.write ⟨0x12, rtt, thr, FrameData.cancel m⟩) =
      ⟨0x12, rtt, thr, FrameData.cancel m⟩ := by
  have hf2 : ControlFrame.write ⟨0x12, rtt, thr, FrameData.cancel m⟩ =
      [0x12 % 2 ^ 8, 0] ++ (BinaryConverter.writeUInt16 rtt ++
        (BinaryConverter.writeInt32 thr ++ MessageCancelControl.write m)) := by
    simp [ControlFrame.write, ControlFrame.writeData, List.append_assoc]
  have hf4 : ControlFrame.write ⟨0x12, rtt, thr, FrameData.cancel m⟩ =
      ([0x12 % 2 ^ 8, 0] ++ BinaryConverter.writeUInt16 rtt) ++
        (BinaryConverter.writeInt32 thr ++ MessageCancelControl.write m) := by
    simp [ControlFrame.write, ControlFrame.writeData, List.append_assoc]
  have hf8 : ControlFrame.write ⟨0x12, rtt, thr, FrameData.cancel m⟩ =
      ([0x12 % 2 ^ 8, 0] ++ BinaryConverter.writeUInt16 rtt ++
        BinaryConverter.writeInt32 thr) ++ (MessageCancelControl.write m ++ []) := by
    simp [ControlFrame.write, ControlFrame.writeData, List.append_assoc]
  have hop : byteAt (ControlFrame.write ⟨0x12, rtt, thr, FrameData.cancel m⟩) 0 = 0x12 := by
    rw [hf2]
    rfl
  simp only [ControlFrame.read, ControlFrame.mk.injEq]
  refine ⟨hop, ?_, ?_, ?_⟩
  · rw [hf2]
    exact readUInt16_at2 [0x12 % 2 ^ 8, 0] _ rtt 2 hrtt rfl
  · rw [hf4]
    exact readInt32_at2 ([0x12 % 2 ^ 8, 0] ++ BinaryConverter.writeUInt16 rtt) _ thr 4
      ht1 ht2 (by simp [BinaryConverter.writeUInt16])
  · rw [hop]
    unfold ControlFrame.readData
    rw [if_neg (by omega), if_neg (by omega), if_pos rfl]
    simp only [MessageCancelControl.read]
    refine congrArg FrameData.cancel ?_
    rw [hf8]
    show BinaryConverter.readUInt16 _ 8 = m
    exact readUInt16_at2 ([0x12 % 2 ^ 8, 0] ++ BinaryConverter.writeUInt16 rtt ++
      BinaryConverter.writeInt32 thr) [] m 8 hm
      (by simp [BinaryConverter.writeUInt16, BinaryConverter.writeInt32, writeUInt32bytes])

/-- C1 amended: for every well-formed control frame — capability frame
(opcode 0x00), ping/pong (0x10/0x11), data-group frame with 1-15
descriptors whose fields are in range with headers of 0 to 63 bytes, or
cancel frame (0x12) — `ControlFrame.read` applied to the bytes of
`ControlFrame.write` yields a structurally equal frame.  (The original
claim's bound of 64 header bytes is refuted by
`controlFrame_roundtrip_counterexample`: 64 does not fit the 6-bit
header-length field, `64 & 0x3f = 0`.) -/
theorem controlFrame_roundtrip (f : ControlFrame)
    (hrtt : f.rttEstimate < 2 ^ 16) (ht1 : -2 ^ 31 ≤ f.throughputEstimate)
    (ht2 : f.throughputEstimate < 2 ^ 31) (hdata : ControlFrame.WFdata f) :
    ControlFrame.read (ControlFrame.write f) = f := by
  obtain ⟨op, rtt, thr, data⟩ := f
  cases data with
  | none =>
    exact controlFrame_write_pingpong_read op rtt thr hdata hrtt ht1 ht2
  | caps c =>
    obtain ⟨M, m, K⟩ := c
    obtain ⟨hop, h1, h2, h3, h4⟩ := hdata
    have hop' : op = 0x00 := hop
    subst hop'
    exact controlFrame_write_caps_read rtt thr M m K hrtt ht1 ht2 h1 h2 h3 h4
  | dataFrames ds =>
    obtain ⟨h1, h2, h3, h4⟩ := hdata
    have hop' : ds.length = op := h3
    subst hop'
    exact controlFrame_write_frames_read rtt thr ds hrtt ht1 ht2 h1 h2 h4
  | cancel m =>
    obtain ⟨hop, hm⟩ := hdata
    have hop' : op = 0x12 := hop
    subst hop'
    exact controlFrame_write_cancel_read rtt thr m hrtt ht1 ht2 hm

/-- C1 counterexample to the claimed range "header of 0-64 bytes": a
single-descriptor frame whose descriptor carries a 64-byte header is
within all the claimed field ranges, yet decoding its encoding loses the
header (the 6-bit header-length field stores `64 & 0x3f = 0`). -/
theorem controlFrame_roundtrip_counterexample :
    (0 : ℕ) < 2 ^ 26 ∧ (64 : ℕ) < 2 ^ 26 ∧ (0 : ℕ) ≤ 15 ∧
    (List.replicate 64 9).length ≤ 64 ∧
    ControlFrame.read (ControlFrame.write ⟨0x01, 0, 0,
        FrameData.dataFrames [⟨0, 64, 0, true, true, List.replicate 64 9⟩]⟩) ≠
      ⟨0x01, 0, 0, FrameData.dataFrames [⟨0, 64, 0, true, true, List.replicate 64 9⟩]⟩ := by
  decide

theorem controlFrame_roundtrip_witness :
    ((⟨0x02, 100, -5, FrameData.dataFrames
        [⟨5, 700, 3, true, false, [170, 187]⟩, ⟨0, 10, 1, false, true, []⟩]⟩ :
      ControlFrame).rttEstimate < 2 ^ 16 ∧
     -2 ^ 31 ≤ (⟨0x02, 100, -5, FrameData.dataFrames
        [⟨5, 700, 3, true, false, [170, 187]⟩, ⟨0, 10, 1, false, true, []⟩]⟩ :
      ControlFrame).throughputEstimate ∧
     (⟨0x02, 100, -5, FrameData.dataFrames
        [⟨5, 700, 3, true, false, [170, 187]⟩, ⟨0, 10, 1, false, true, []⟩]⟩ :
      ControlFrame).throughputEstimate < 2 ^ 31 ∧
     ControlFrame.WFdata ⟨0x02, 100, -5, FrameData.dataFrames
        [⟨5, 700, 3, true, false, [170, 187]⟩, ⟨0, 10, 1, false, true, []⟩]⟩) ∧
    ControlFrame.read (ControlFrame.write ⟨0x02, 100, -5, FrameData.dataFrames
        [⟨5, 700, 3, true, false, [170, 187]⟩, ⟨0, 10, 1, false, true, []⟩]⟩) =
      ⟨0x02, 100, -5, FrameData.dataFrames
        [⟨5, 700, 3, true, false, [170, 187]⟩, ⟨0, 10, 1, false, true, []⟩]⟩ := by
  have hwf : ControlFrame.WFdata ⟨0x02, 100, -5, FrameData.dataFrames
      [⟨5, 700, 3, true, false, [170, 187]⟩, ⟨0, 10, 1, false, true, []⟩]⟩ := by
    exact ⟨by decide, by decide, by decide, by decide⟩
  exact ⟨⟨by decide, by decide, by decide, hwf⟩,
    controlFrame_roundtrip _ (by decide) (by decide) (by decide) hwf⟩

end WebSocketRT
